import Mathlib

/-!
Verification of the abbreviated git log graph tool.

The program is embedded shallowly: commits are natural-number identifiers,
the commit graph is a function giving each commit its primary parent (the
first element of `parents`, if any) together with its timestamps, and the
stateful loops of the source become fuel-indexed recursive functions.
Python sets and insertion-ordered dicts are embedded as duplicate-free
lists built with a guarded insert.
-/

/-- A commit graph: each commit has an optional primary parent
(`parents[0]` in the source) and author/committer timestamps with their
timezone offsets. -/
structure Graph where
  parent : Nat → Option Nat
  authoredDate : Nat → Int
  authorTzOffset : Nat → Int
  committedDate : Nat → Int
  committerTzOffset : Nat → Int

/-- Follow the primary parent `n` times; `none` when a parentless commit is
hit before taking all `n` steps. -/
def iterParent (g : Graph) : Nat → Nat → Option Nat
  | 0, x => some x
  | n+1, x =>
    match g.parent x with
    | none => none
    | some p => iterParent g n p

/-- `y` is reachable from `x` by repeatedly following the primary parent
(inclusive of `x`). -/
def Reaches (g : Graph) (x y : Nat) : Prop :=
  ∃ n, iterParent g n x = some y

/-- The graph has no (primary-parent) cycles. -/
def Acyclic (g : Graph) : Prop :=
  ∀ x n, iterParent g n x = some x → n = 0

/-- Set-style insert used to embed Python `set.add` / dict-key insertion:
append the element only if it is not already present. -/
def insertNew (s : List Nat) (x : Nat) : List Nat :=
  if x ∈ s then s else s ++ [x]

/-- One round's advance of one side of the LCA search (the inner `for` loop
of `find_lca`): advance the cursor `last` up to `n` primary-parent steps,
returning the collision with the other side's ancestor set `oth` if one is
found, else the new own ancestor set and cursor. -/
def advanceSide (g : Graph) (oth : List Nat) : Nat → List Nat → Nat → Option Nat × List Nat × Nat
  | 0, own, last => (none, own, last)
  | n+1, own, last =>
    match g.parent last with
    | none => (none, own, last)
    | some p =>
      if p ∈ oth then (some p, own, p)
      else advanceSide g oth n (insertNew own p) p

/-- The `while True` loop of `find_lca`, indexed by fuel: each iteration
advances side 1 by `|ancestors1|` steps checking against side 2's set, then
side 2 by `|ancestors2|` steps checking against side 1's updated set. -/
def lcaLoop (g : Graph) : Nat → List Nat → List Nat → Nat → Nat → Option Nat
  | 0, _, _, _, _ => none
  | fuel+1, anc1, anc2, last1, last2 =>
    match advanceSide g anc2 anc1.length anc1 last1 with
    | (some r, _, _) => some r
    | (none, anc1', last1') =>
      match advanceSide g anc1' anc2.length anc2 last2 with
      | (some r, _, _) => some r
      | (none, anc2', last2') => lcaLoop g fuel anc1' anc2' last1' last2'

/-- `find_lca` from the source: trivial equal case, else the interleaved
two-pointer search.  `none` models the loop not having terminated within
`fuel` rounds. -/
def find_lca (g : Graph) (fuel : Nat) (a b : Nat) : Option Nat :=
  if a = b then some a
  else lcaLoop g fuel [a] [b] a b

/-- The fold of `find_root`: `for c in commit_list[1:]: root = find_lca(root, c)`. -/
def rootLoop (g : Graph) (fuel : Nat) : List Nat → Nat → Option Nat
  | [], r => some r
  | c :: cs, r =>
    match find_lca g fuel r c with
    | some r' => rootLoop g fuel cs r'
    | none => none

/-- `find_root` from the source (the `assert len >= 1` makes the empty list
a failure). -/
def find_root (g : Graph) (fuel : Nat) (heads : List Nat) : Option Nat :=
  match heads with
  | [] => none
  | h :: t => rootLoop g fuel t h

-- Basic lemmas about iterParent / Reaches.

theorem iterParent_add (g : Graph) (i j : Nat) (x : Nat) :
    iterParent g (i + j) x = (iterParent g i x).bind (iterParent g j) := by
  induction i generalizing x with
  | zero => simp [iterParent]
  | succ n ih =>
    have : n + 1 + j = (n + j) + 1 := by omega
    rw [this]
    simp only [iterParent]
    cases g.parent x with
    | none => simp
    | some p => simpa using ih p

theorem iterParent_succ_right (g : Graph) (n x p y : Nat)
    (h : iterParent g n x = some y) (hp : g.parent y = some p) :
    iterParent g (n + 1) x = some p := by
  rw [iterParent_add g n 1 x, h]
  simp [iterParent, hp]

theorem reaches_refl (g : Graph) (x : Nat) : Reaches g x x :=
  ⟨0, rfl⟩

theorem reaches_trans (g : Graph) (x y z : Nat)
    (h1 : Reaches g x y) (h2 : Reaches g y z) : Reaches g x z := by
  obtain ⟨i, hi⟩ := h1
  obtain ⟨j, hj⟩ := h2
  exact ⟨i + j, by rw [iterParent_add, hi]; exact hj⟩

theorem reaches_parent (g : Graph) (x y p : Nat)
    (h : Reaches g x y) (hp : g.parent y = some p) : Reaches g x p := by
  obtain ⟨n, hn⟩ := h
  exact ⟨n + 1, iterParent_succ_right g n x p y hn hp⟩

/-- Two targets reached from the same source are comparable. -/
theorem reaches_cases (g : Graph) (a x y : Nat)
    (hx : Reaches g a x) (hy : Reaches g a y) :
    Reaches g x y ∨ Reaches g y x := by
  obtain ⟨i, hi⟩ := hx
  obtain ⟨j, hj⟩ := hy
  rcases Nat.le_total i j with h | h
  · left
    refine ⟨j - i, ?_⟩
    have : iterParent g (i + (j - i)) a = some y := by rwa [Nat.add_sub_cancel' h]
    rw [iterParent_add, hi] at this
    exact this
  · right
    refine ⟨i - j, ?_⟩
    have : iterParent g (j + (i - j)) a = some x := by rwa [Nat.add_sub_cancel' h]
    rw [iterParent_add, hj] at this
    exact this

theorem reaches_antisymm (g : Graph) (hg : Acyclic g) (x y : Nat)
    (h1 : Reaches g x y) (h2 : Reaches g y x) : x = y := by
  obtain ⟨i, hi⟩ := h1
  obtain ⟨j, hj⟩ := h2
  have : iterParent g (i + j) x = some x := by rw [iterParent_add, hi]; exact hj
  have hz := hg x (i + j) this
  have : i = 0 := by omega
  subst this
  simpa [iterParent] using hi

-- The search-state invariants of `find_lca`'s loop.

/-- The ancestor set of one search side is exactly the chain prefix of its
source up to index `n`. -/
def AncInv (g : Graph) (src : Nat) (n : Nat) (anc : List Nat) : Prop :=
  ∀ x, x ∈ anc ↔ ∃ i, i ≤ n ∧ iterParent g i src = some x

/-- The explored chain prefixes of the two sides share no commit. -/
def DisjPref (g : Graph) (a b : Nat) (n1 n2 : Nat) : Prop :=
  ∀ x i j, i ≤ n1 → j ≤ n2 → iterParent g i a = some x →
    iterParent g j b = some x → False

theorem disjPref_symm (g : Graph) (a b : Nat) (n1 n2 : Nat)
    (h : DisjPref g a b n1 n2) : DisjPref g b a n2 n1 :=
  fun x i j hi hj hx hy => h x j i hj hi hy hx

theorem mem_insertNew (s : List Nat) (x y : Nat) :
    x ∈ insertNew s y ↔ x ∈ s ∨ x = y := by
  unfold insertNew
  split
  · next hm => constructor
               · exact fun h => Or.inl h
               · rintro (h | rfl)
                 · exact h
                 · exact hm
  · simp

theorem iter_shift (g : Graph) (src : Nat) (i j : Nat) (x y : Nat)
    (hx : iterParent g i src = some x) (hy : iterParent g j src = some y)
    (hij : i ≤ j) : iterParent g (j - i) x = some y := by
  have hj : j = i + (j - i) := by omega
  rw [hj, iterParent_add, hx] at hy
  exact hy

/-- If one side's step collides with the other side's explored prefix and
the prefixes explored so far are disjoint, the collision point is reachable
from every common ancestor candidate: it is the first common chain element. -/
theorem collision_meet (g : Graph) (hg : Acyclic g) (a b r : Nat)
    (n' jr m : Nat)
    (hra : iterParent g n' a = some r) (hrb : iterParent g jr b = some r)
    (hjr : jr ≤ m)
    (hdisj : ∀ x i j, i < n' → j ≤ m → iterParent g i a = some x →
      iterParent g j b = some x → False) :
    ∀ x, Reaches g a x → Reaches g b x → Reaches g r x := by
  rintro x ⟨i, hi⟩ ⟨j', hj'⟩
  by_cases hin : n' ≤ i
  · exact ⟨i - n', iter_shift g a n' i r x hra hi hin⟩
  · push_neg at hin
    by_cases hjm : j' ≤ m
    · exact (hdisj x i j' hin hjm hi hj').elim
    · push_neg at hjm
      have hxr : iterParent g (n' - i) x = some r :=
        iter_shift g a i n' x r hi hra (Nat.le_of_lt hin)
      have hbig : iterParent g (j' + (n' - i)) b = some r := by
        rw [iterParent_add, hj']
        exact hxr
      have hlt : jr ≤ j' + (n' - i) := by omega
      have hcyc : iterParent g (j' + (n' - i) - jr) r = some r :=
        iter_shift g b jr (j' + (n' - i)) r r hrb hbig hlt
      have := hg r _ hcyc
      omega

/-- Collision case of one round's advance: the returned commit extends the
advancing side's chain, lies in the other side's explored prefix, and the
prefixes strictly before it are still disjoint. -/
theorem advanceSide_some (g : Graph) (src osrc : Nat) (m : Nat)
    (oth : List Nat) (hoth : AncInv g osrc m oth) :
    ∀ k own last n r own' last',
      iterParent g n src = some last →
      DisjPref g src osrc n m →
      advanceSide g oth k own last = (some r, own', last') →
      ∃ n', n < n' ∧ iterParent g n' src = some r ∧
        (∃ j, j ≤ m ∧ iterParent g j osrc = some r) ∧
        (∀ x i j, i < n' → j ≤ m → iterParent g i src = some x →
          iterParent g j osrc = some x → False) := by
  intro k
  induction k with
  | zero =>
    intro own last n r own' last' _ _ hres
    simp [advanceSide] at hres
  | succ k ih =>
    intro own last n r own' last' hlast hdisj hres
    cases hpar : g.parent last with
    | none => simp [advanceSide, hpar] at hres
    | some p =>
      simp only [advanceSide, hpar] at hres
      by_cases hmem : p ∈ oth
      · rw [if_pos hmem] at hres
        have hr' : p = r := by
          have := congrArg Prod.fst hres
          simpa using this
        subst hr'
        refine ⟨n + 1, Nat.lt_succ_self n,
          iterParent_succ_right g n src p last hlast hpar, ?_, ?_⟩
        · exact (hoth p).mp hmem
        · intro x i j hi hj hx hy
          exact hdisj x i j (by omega) hj hx hy
      · rw [if_neg hmem] at hres
        have hlast' : iterParent g (n + 1) src = some p :=
          iterParent_succ_right g n src p last hlast hpar
        have hdisj' : DisjPref g src osrc (n + 1) m := by
          intro x i j hi hj hx hy
          by_cases hin : i ≤ n
          · exact hdisj x i j hin hj hx hy
          · have : i = n + 1 := by omega
            subst this
            have hxp : x = p := by
              rw [hlast'] at hx
              exact (Option.some.injEq _ _).mp hx.symm
            subst hxp
            exact hmem ((hoth x).mpr ⟨j, hj, hy⟩)
        obtain ⟨n', hn', hit, hj, hd⟩ :=
          ih (insertNew own p) p (n + 1) r own' last' hlast' hdisj' hres
        exact ⟨n', by omega, hit, hj, hd⟩

/-- No-collision case of one round's advance: the side's invariants are
re-established at a possibly larger prefix length. -/
theorem advanceSide_none (g : Graph) (src osrc : Nat) (m : Nat)
    (oth : List Nat) (hoth : AncInv g osrc m oth) :
    ∀ k own last n own' last',
      iterParent g n src = some last →
      AncInv g src n own →
      DisjPref g src osrc n m →
      advanceSide g oth k own last = (none, own', last') →
      ∃ n', n ≤ n' ∧ iterParent g n' src = some last' ∧
        AncInv g src n' own' ∧ DisjPref g src osrc n' m := by
  intro k
  induction k with
  | zero =>
    intro own last n own' last' hlast hanc hdisj hres
    simp [advanceSide] at hres
    obtain ⟨h1, h2⟩ := hres
    subst h1; subst h2
    exact ⟨n, le_refl n, hlast, hanc, hdisj⟩
  | succ k ih =>
    intro own last n own' last' hlast hanc hdisj hres
    cases hpar : g.parent last with
    | none =>
      simp only [advanceSide, hpar] at hres
      obtain ⟨h1, h2⟩ : own = own' ∧ last = last' := by
        constructor
        · simpa using congrArg (fun q => q.2.1) hres
        · simpa using congrArg (fun q => q.2.2) hres
      subst h1; subst h2
      exact ⟨n, le_refl n, hlast, hanc, hdisj⟩
    | some p =>
      simp only [advanceSide, hpar] at hres
      by_cases hmem : p ∈ oth
      · rw [if_pos hmem] at hres
        have : (some p : Option Nat) = none := by
          simpa using congrArg Prod.fst hres
        exact absurd this (by simp)
      · rw [if_neg hmem] at hres
        have hlast' : iterParent g (n + 1) src = some p :=
          iterParent_succ_right g n src p last hlast hpar
        have hanc' : AncInv g src (n + 1) (insertNew own p) := by
          intro x
          rw [mem_insertNew]
          constructor
          · rintro (hx | rfl)
            · obtain ⟨i, hi, hxi⟩ := (hanc x).mp hx
              exact ⟨i, by omega, hxi⟩
            · exact ⟨n + 1, le_refl _, hlast'⟩
          · rintro ⟨i, hi, hxi⟩
            by_cases hin : i ≤ n
            · exact Or.inl ((hanc x).mpr ⟨i, hin, hxi⟩)
            · have : i = n + 1 := by omega
              subst this
              right
              rw [hlast'] at hxi
              exact ((Option.some.injEq _ _).mp hxi.symm)
        have hdisj' : DisjPref g src osrc (n + 1) m := by
          intro x i j hi hj hx hy
          by_cases hin : i ≤ n
          · exact hdisj x i j hin hj hx hy
          · have : i = n + 1 := by omega
            subst this
            have hxp : x = p := by
              rw [hlast'] at hx
              exact (Option.some.injEq _ _).mp hx.symm
            subst hxp
            exact hmem ((hoth x).mpr ⟨j, hj, hy⟩)
        obtain ⟨n', hn', hit, hanc'', hd⟩ :=
          ih (insertNew own p) p (n + 1) own' last' hlast' hanc' hdisj' hres
        exact ⟨n', by omega, hit, hanc'', hd⟩

/-- A restricted-sense least common ancestor: a common primary-parent
ancestor of `a` and `b` from which every other common primary-parent
ancestor of the pair is reachable (the first common chain element). -/
def IsMeet (g : Graph) (a b r : Nat) : Prop :=
  Reaches g a r ∧ Reaches g b r ∧
    ∀ x, Reaches g a x → Reaches g b x → Reaches g r x

/-- Main loop invariant theorem: any value returned by `find_lca`'s loop is
a common ancestor, and on acyclic graphs it is the meet. -/
theorem lcaLoop_spec (g : Graph) (a b : Nat) :
    ∀ fuel anc1 anc2 last1 last2 n1 n2 r,
      iterParent g n1 a = some last1 → iterParent g n2 b = some last2 →
      AncInv g a n1 anc1 → AncInv g b n2 anc2 →
      DisjPref g a b n1 n2 →
      lcaLoop g fuel anc1 anc2 last1 last2 = some r →
      Reaches g a r ∧ Reaches g b r ∧
        (Acyclic g → ∀ x, Reaches g a x → Reaches g b x → Reaches g r x) := by
  intro fuel
  induction fuel with
  | zero =>
    intro _ _ _ _ _ _ _ _ _ _ _ _ hres
    simp [lcaLoop] at hres
  | succ fuel ih =>
    intro anc1 anc2 last1 last2 n1 n2 r hl1 hl2 ha1 ha2 hd hres
    rw [lcaLoop] at hres
    rcases h1eq : advanceSide g anc2 anc1.length anc1 last1 with ⟨o1, anc1', last1'⟩
    rw [h1eq] at hres
    cases o1 with
    | some r0 =>
      have hr : r0 = r := by simpa using hres
      subst hr
      obtain ⟨n', _, hirn, ⟨j, hjm, hjr⟩, hdisj'⟩ :=
        advanceSide_some g a b n2 anc2 ha2 anc1.length anc1 last1 n1 r0 anc1' last1'
          hl1 hd h1eq
      refine ⟨⟨n', hirn⟩, ⟨j, hjr⟩, ?_⟩
      intro hg
      exact collision_meet g hg a b r0 n' j n2 hirn hjr hjm hdisj'
    | none =>
      obtain ⟨n1', hn1', hl1', ha1', hd1'⟩ :=
        advanceSide_none g a b n2 anc2 ha2 anc1.length anc1 last1 n1 anc1' last1'
          hl1 ha1 hd h1eq
      simp only [] at hres
      rcases h2eq : advanceSide g anc1' anc2.length anc2 last2 with ⟨o2, anc2', last2'⟩
      rw [h2eq] at hres
      cases o2 with
      | some r0 =>
        have hr : r0 = r := by simpa using hres
        subst hr
        obtain ⟨n2', _, hirn, ⟨j, hjn1, hja⟩, hdisj2⟩ :=
          advanceSide_some g b a n1' anc1' ha1' anc2.length anc2 last2 n2 r0 anc2' last2'
            hl2 (disjPref_symm g a b n1' n2 hd1') h2eq
        refine ⟨⟨j, hja⟩, ⟨n2', hirn⟩, ?_⟩
        intro hg x hax hbx
        exact collision_meet g hg b a r0 n2' j n1' hirn hja hjn1 hdisj2 x hbx hax
      | none =>
        obtain ⟨n2', hn2', hl2', ha2', hd2'⟩ :=
          advanceSide_none g b a n1' anc1' ha1' anc2.length anc2 last2 n2 anc2' last2'
            hl2 ha2 (disjPref_symm g a b n1' n2 hd1') h2eq
        exact ih anc1' anc2' last1' last2' n1' n2' r hl1' hl2' ha1' ha2'
          (disjPref_symm g b a n2' n1' hd2') hres

/-- `find_lca`, whenever it returns, returns a common primary-parent
ancestor of its arguments; on acyclic graphs the returned commit is the
meet of the two chains. -/
theorem find_lca_spec (g : Graph) (fuel : Nat) (a b r : Nat)
    (h : find_lca g fuel a b = some r) :
    Reaches g a r ∧ Reaches g b r ∧
      (Acyclic g → ∀ x, Reaches g a x → Reaches g b x → Reaches g r x) := by
  unfold find_lca at h
  by_cases hab : a = b
  · rw [if_pos hab] at h
    have hr : a = r := by simpa using h
    subst hr
    subst hab
    exact ⟨reaches_refl g a, reaches_refl g a, fun _ x hax _ => hax⟩
  · rw [if_neg hab] at h
    refine lcaLoop_spec g a b fuel [a] [b] a b 0 0 r rfl rfl ?_ ?_ ?_ h
    · intro x
      constructor
      · intro hx
        refine ⟨0, le_refl 0, ?_⟩
        simp at hx
        simp [iterParent, hx]
      · rintro ⟨i, hi, hx⟩
        have : i = 0 := by omega
        subst this
        simp [iterParent] at hx
        simp [hx]
    · intro x
      constructor
      · intro hx
        refine ⟨0, le_refl 0, ?_⟩
        simp at hx
        simp [iterParent, hx]
      · rintro ⟨i, hi, hx⟩
        have : i = 0 := by omega
        subst this
        simp [iterParent] at hx
        simp [hx]
    · intro x i j hi hj hx hy
      have hi0 : i = 0 := by omega
      have hj0 : j = 0 := by omega
      subst hi0; subst hj0
      simp [iterParent] at hx hy
      exact hab (hx ▸ hy ▸ rfl)

theorem find_lca_meet (g : Graph) (hg : Acyclic g) (fuel : Nat) (a b r : Nat)
    (h : find_lca g fuel a b = some r) : IsMeet g a b r := by
  obtain ⟨h1, h2, h3⟩ := find_lca_spec g fuel a b r h
  exact ⟨h1, h2, h3 hg⟩

theorem meet_unique (g : Graph) (hg : Acyclic g) (a b r r' : Nat)
    (h1 : IsMeet g a b r) (h2 : IsMeet g a b r') : r = r' := by
  obtain ⟨ha1, hb1, hm1⟩ := h1
  obtain ⟨ha2, hb2, hm2⟩ := h2
  exact reaches_antisymm g hg r r' (hm1 r' ha2 hb2) (hm2 r ha1 hb1)

/-- If one argument is already an ancestor of the other, it is their meet. -/
theorem isMeet_of_reaches (g : Graph) (r c : Nat) (h : Reaches g c r) :
    IsMeet g r c r :=
  ⟨reaches_refl g r, h, fun _ hx _ => hx⟩

-- `find_relevant_commits` from the source.

/-- All index pairs `(i, j)` with `i, j < n`, in the row-major order of the
two nested `enumerate` loops. -/
def allPairs (n : Nat) : List (Nat × Nat) :=
  (List.range n).flatMap (fun i => (List.range n).map (fun j => (i, j)))

/-- The nested pair loop of `find_relevant_commits`: for each ordered index
pair with `i ≠ j`, compute the pairwise LCA and insert it if new. -/
def relevantLoop (g : Graph) (fuel : Nat) (heads : List Nat) :
    List (Nat × Nat) → List Nat → Option (List Nat)
  | [], acc => some acc
  | ij :: ps, acc =>
    if ij.1 = ij.2 then relevantLoop g fuel heads ps acc
    else
      match heads[ij.1]?, heads[ij.2]? with
      | some c1, some c2 =>
        match find_lca g fuel c1 c2 with
        | some l => relevantLoop g fuel heads ps (insertNew acc l)
        | none => none
      | _, _ => relevantLoop g fuel heads ps acc

/-- `find_relevant_commits` from the source: the insertion-ordered key set
of the returned dict — first every head (deduplicated), then every pairwise
LCA over ordered index pairs `i ≠ j` (deduplicated). -/
def find_relevant_commits (g : Graph) (fuel : Nat) (heads : List Nat) :
    Option (List Nat) :=
  relevantLoop g fuel heads (allPairs heads.length) (heads.foldl insertNew [])

-- The backward chain walk of `get_abbrev_log_graph` (the `while True`
-- branch-finding loop), and the branch assembly.

/-- Result of the backward walk: the appended `new_growth`/`abbrev_nums`
lists in visit order, or the `c.parents[0]` IndexError on a parentless
commit, or fuel exhaustion. -/
inductive WalkRes where
  | ok (growth : List Nat) (gaps : List Int)
  | noParent
  | fuelOut
deriving DecidableEq, Repr

/-- The backward walk from a head: at each commit, if it must be rendered
append it together with `abbrev_num - 1`; stop at an already-created
commit; otherwise step to the primary parent and count the skip. -/
def walkLoop (g : Graph) (render created : List Nat) :
    Nat → Nat → Int → List Nat → List Int → WalkRes
  | 0, _, _, _, _ => WalkRes.fuelOut
  | fuel+1, c, ab, growth, gaps =>
    let growth2 := if c ∈ render then growth ++ [c] else growth
    let gaps2 := if c ∈ render then gaps ++ [ab - 1] else gaps
    let ab2 : Int := if c ∈ render then 0 else ab
    if c ∈ created then WalkRes.ok growth2 gaps2
    else
      match g.parent c with
      | none => WalkRes.noParent
      | some p => walkLoop g render created fuel p (ab2 + 1) growth2 gaps2

/-- The primary-parent path from a commit to the first already-created
commit, inclusive of both ends (used to state path length and relevant
counts). -/
def walkPath (g : Graph) (created : List Nat) : Nat → Nat → Option (List Nat)
  | 0, _ => none
  | fuel+1, c =>
    if c ∈ created then some [c]
    else
      match g.parent c with
      | none => none
      | some p => (walkPath g created fuel p).map (fun path => c :: path)

/-- The consumed chain: `zip(new_growth[1:], abbrev_nums)` after both lists
are reversed in place. -/
def chainPairs (growth : List Nat) (gaps : List Int) : List (Nat × Int) :=
  (growth.reverse.drop 1).zip gaps.reverse

/-- Role of a faux commit, encoded in the source by the `COMMIT_TYPE1/2/3`
message tags. -/
inductive Role where
  | abbrevMark
  | regular
  | head
deriving DecidableEq, Repr

/-- A commit created in the scratch repository: its role tag, the literal
abbreviation count if its message carries one, the original commit it was
copied from, and the author/committer timestamps (each paired with its
timezone offset) passed to `repo.index.commit`. -/
structure FauxNode where
  role : Role
  annot : Option Int
  src : Nat
  authorDate : Int × Int
  commitDate : Int × Int
deriving DecidableEq, Repr

/-- `copy_commit` from the source: the created faux commit carries the
original commit's `authored_date`/`committed_date` with their timezone
offsets. -/
def copy_commit (g : Graph) (c : Nat) (role : Role) (annot : Option Int) :
    FauxNode :=
  { role := role, annot := annot, src := c,
    authorDate := (g.authoredDate c, g.authorTzOffset c),
    commitDate := (g.committedDate c, g.committerTzOffset c) }

/-- The faux commits appended for one chain entry `(c, abbrev_num)`: when
the gap is positive, two blank abbreviation commits around one annotated
with the literal count, then the commit itself tagged head or regular. -/
def entryNodes (g : Graph) (heads : List Nat) (c : Nat) (ab : Int) :
    List FauxNode :=
  (if ab > 0 then
    [copy_commit g c Role.abbrevMark none,
     copy_commit g c Role.abbrevMark (some ab),
     copy_commit g c Role.abbrevMark none]
   else []) ++
  [copy_commit g c (if c ∈ heads then Role.head else Role.regular) none]

/-- Result of assembling all branches: the created faux commits and the
final `created` key set, or one of the failure modes (the KeyError on a
missing anchor, the IndexError of the walk, an empty `new_growth`). -/
inductive AsmRes where
  | ok (nodes : List FauxNode) (created : List Nat)
  | noParentCrash
  | anchorMissing
  | emptyGrowth
  | fuelOut
deriving DecidableEq, Repr

/-- The per-head branch creation loop of `get_abbrev_log_graph`. -/
def asmLoop (g : Graph) (heads render : List Nat) (fuel : Nat) :
    List Nat → List FauxNode → List Nat → AsmRes
  | [], nodes, created => AsmRes.ok nodes created
  | h :: hs, nodes, created =>
    match walkLoop g render created fuel h 0 [] [] with
    | WalkRes.fuelOut => AsmRes.fuelOut
    | WalkRes.noParent => AsmRes.noParentCrash
    | WalkRes.ok growth gaps =>
      match growth.reverse.head? with
      | none => AsmRes.emptyGrowth
      | some bud =>
        if bud ∈ created then
          asmLoop g heads render fuel hs
            (nodes ++ (chainPairs growth gaps).flatMap
              (fun pr => entryNodes g heads pr.1 pr.2))
            (created ++ (chainPairs growth gaps).map Prod.fst)
        else AsmRes.anchorMissing

/-- The root commit rendered before any branch. -/
def rootNode (g : Graph) (heads : List Nat) (root : Nat) : FauxNode :=
  copy_commit g root (if root ∈ heads then Role.head else Role.regular) none

/-- The whole assembly phase: render the root, then each head's branch in
input order. -/
def assembleAll (g : Graph) (heads render : List Nat) (root : Nat)
    (fuel : Nat) : AsmRes :=
  asmLoop g heads render fuel heads [rootNode g heads root] [root]

-- The postprocessing loop (string level).

/-- `pat` is an initial segment of `s`. -/
def leadsWith : List Char → List Char → Bool
  | [], _ => true
  | _ :: _, [] => false
  | p :: ps, c :: cs => p == c && leadsWith ps cs

/-- Python `str.find`: index of the first occurrence of `pat`, `none` for
Python's `-1`. -/
def strFind (pat : List Char) : List Char → Option Nat
  | [] => if leadsWith pat [] then some 0 else none
  | c :: rest =>
    if leadsWith pat (c :: rest) then some 0
    else (strFind pat rest).map (fun i => i + 1)

/-- Python `sub in s`. -/
def containsSub (pat s : List Char) : Bool :=
  (strFind pat s).isSome

/-- Python slice-index clamping: negative indices count from the end, and
everything is clamped into `[0, len]`. -/
def pyIndex (len : Nat) (i : Int) : Nat :=
  if i < 0 then (i + len).toNat else min i.toNat len

/-- Python `s[a:b]`. -/
def pyslice (s : List Char) (a b : Int) : List Char :=
  (s.take (pyIndex s.length b)).drop (pyIndex s.length a)

/-- Python `s.replace(a, b, 1)` for single-character patterns. -/
def replaceFirst (s : List Char) (a b : Char) : List Char :=
  match s with
  | [] => []
  | c :: rest => if c = a then b :: rest else c :: replaceFirst rest a b

def COMMIT_ABBREV : List Char := "COMMIT_TYPE1".toList

def COMMIT_REGULAR : List Char := "COMMIT_TYPE2".toList

def COMMIT_HEAD : List Char := "COMMIT_TYPE3".toList

def COMMIT_MARK : List Char := "COMMIT_".toList

def COMMIT_TAG_LEN : Nat := COMMIT_ABBREV.length

/-- One iteration of the postprocessing loop: locate the `COMMIT_` tag,
slice out the `<sha> COMMIT_TYPEn ` span, and rewrite the first `*` glyph
according to the tag. -/
def postprocLine (shaLen : Nat) (line : List Char) : List Char :=
  match strFind COMMIT_MARK line with
  | none => line
  | some idx =>
    let pEnd : Int := (idx : Int) + (COMMIT_TAG_LEN : Int) + 1
    let pStart : Int := pEnd - ((COMMIT_TAG_LEN : Int) + (shaLen : Int) + 2)
    let pfx := pyslice line pStart pEnd
    let stripped := pyslice line 0 pStart ++ pyslice line pEnd (line.length : Int)
    if containsSub COMMIT_ABBREV pfx then replaceFirst stripped '*' '|'
    else if containsSub COMMIT_HEAD pfx then replaceFirst stripped '*' '@'
    else stripped

/-- The whole postprocessing pass, accumulating output lines in order. -/
def postprocess (shaLen : Nat) (lines : List (List Char)) : List (List Char) :=
  lines.foldl (fun acc l => acc ++ [postprocLine shaLen l]) []

-- Shared lemmas about find_root.

theorem rootLoop_eq_foldlM (g : Graph) (fuel : Nat) :
    ∀ t r, rootLoop g fuel t r =
      List.foldlM (fun x c => find_lca g fuel x c) r t := by
  intro t
  induction t with
  | nil => intro r; rfl
  | cons c cs ih =>
    intro r
    rw [rootLoop, List.foldlM_cons]
    cases find_lca g fuel r c with
    | none => rfl
    | some r' => simpa using ih r'

theorem rootLoop_reaches (g : Graph) (fuel : Nat) :
    ∀ t r root, rootLoop g fuel t r = some root →
      Reaches g r root ∧ ∀ x ∈ t, Reaches g x root := by
  intro t
  induction t with
  | nil =>
    intro r root h
    have : r = root := by simpa [rootLoop] using h
    subst this
    exact ⟨reaches_refl g r, by simp⟩
  | cons c cs ih =>
    intro r root h
    rw [rootLoop] at h
    cases hl : find_lca g fuel r c with
    | none => rw [hl] at h; simp at h
    | some r' =>
      rw [hl] at h
      obtain ⟨hrr', hcr', _⟩ := find_lca_spec g fuel r c r' hl
      obtain ⟨hr'root, hcs⟩ := ih r' root h
      refine ⟨reaches_trans g r r' root hrr' hr'root, ?_⟩
      intro x hx
      rcases List.mem_cons.mp hx with rfl | hx
      · exact reaches_trans g x r' root hcr' hr'root
      · exact hcs x hx

theorem find_root_reaches (g : Graph) (fuel : Nat) (heads : List Nat)
    (root : Nat) (h : find_root g fuel heads = some root) :
    ∀ x ∈ heads, Reaches g x root := by
  cases heads with
  | nil => simp [find_root] at h
  | cons hd t =>
    intro x hx
    obtain ⟨hhd, ht⟩ := rootLoop_reaches g fuel t hd root h
    rcases List.mem_cons.mp hx with rfl | hx
    · exact hhd
    · exact ht x hx

-- Concrete graphs used to witness the theorems with hypotheses.

/-- A small tree: trunk 0 ← 1 ← 2 ← 3 ← 4 with a branch 2 ← 5. -/
def gW : Graph :=
  ⟨fun v =>
      if v = 0 then none
      else if v ≤ 4 then some (v - 1)
      else if v = 5 then some 2
      else none,
    fun v => v, fun _ => 60, fun v => v + 100, fun _ => -120⟩

/-- Two parentless commits: disconnected histories. -/
def gD : Graph :=
  ⟨fun _ => none, fun _ => 0, fun _ => 0, fun _ => 0, fun _ => 0⟩

theorem gD_reaches (a x : Nat) (h : Reaches gD a x) : x = a := by
  obtain ⟨n, hn⟩ := h
  cases n with
  | zero => simpa [iterParent] using hn.symm
  | succ m => simp [iterParent, gD] at hn

-- Claim theorems.

/-- Claim C9: for every commit `a`, `find_lca(a, a)` returns `a` itself,
immediately via the trivial equal-arguments case. -/
theorem C9_lca_self (g : Graph) (fuel : Nat) (a : Nat) :
    find_lca g fuel a a = some a := by
  simp [find_lca]

/-- Claim C1 (code bug): on inputs with no common primary-parent ancestor,
`find_lca` never returns, for any number of loop rounds — the source's
`while True` has no termination guard, so instead of failing with
`NoCommonAncestor` it loops forever. -/
theorem C1_disconnected_never_returns (g : Graph) (a b : Nat)
    (h : ¬ ∃ x, Reaches g a x ∧ Reaches g b x) :
    ∀ fuel, find_lca g fuel a b = none := by
  intro fuel
  cases hres : find_lca g fuel a b with
  | none => rfl
  | some r =>
    obtain ⟨h1, h2, _⟩ := find_lca_spec g fuel a b r hres
    exact absurd ⟨r, h1, h2⟩ h

theorem C1_witness :
    (¬ ∃ x, Reaches gD 0 x ∧ Reaches gD 1 x) ∧ find_lca gD 7 0 1 = none := by
  have hno : ¬ ∃ x, Reaches gD 0 x ∧ Reaches gD 1 x := by
    rintro ⟨x, hx, hy⟩
    have h0 := gD_reaches 0 x hx
    have h1 := gD_reaches 1 x hy
    omega
  exact ⟨hno, C1_disconnected_never_returns gD 0 1 hno 7⟩

/-- Claim C2: whenever `find_lca(a, b)` returns, the returned commit is
reachable from `a` by repeatedly following only the primary parent
(inclusive of `a`), and likewise reachable from `b`. -/
theorem C2_lca_common_ancestor (g : Graph) (fuel : Nat) (a b r : Nat)
    (h : find_lca g fuel a b = some r) :
    Reaches g a r ∧ Reaches g b r := by
  obtain ⟨h1, h2, _⟩ := find_lca_spec g fuel a b r h
  exact ⟨h1, h2⟩

theorem C2_witness : Reaches gW 4 2 ∧ Reaches gW 5 2 :=
  C2_lca_common_ancestor gW 10 4 5 2 rfl

/-- Claim C3: for every non-empty list of heads, `find_root` equals the
sequential fold of `find_lca` starting from the first head, and whenever it
returns, the returned commit is a primary-parent ancestor of every
element of the list. -/
theorem C3_root_fold_and_ancestor (g : Graph) (fuel : Nat) (h : Nat)
    (t : List Nat) :
    find_root g fuel (h :: t) =
      List.foldlM (fun x c => find_lca g fuel x c) h t ∧
    ∀ root, find_root g fuel (h :: t) = some root →
      ∀ x ∈ h :: t, Reaches g x root := by
  constructor
  · exact rootLoop_eq_foldlM g fuel t h
  · intro root hroot
    exact find_root_reaches g fuel (h :: t) root hroot

theorem C3_witness :
    find_root gW 10 [4, 5] =
      List.foldlM (fun x c => find_lca gW 10 x c) 4 [5] ∧
    ∀ x ∈ [4, 5], Reaches gW x 2 :=
  ⟨(C3_root_fold_and_ancestor gW 10 4 [5]).1,
   (C3_root_fold_and_ancestor gW 10 4 [5]).2 2 rfl⟩

-- Lemmas for find_relevant_commits.

theorem mem_foldl_insertNew :
    ∀ (l acc : List Nat) (x : Nat),
      x ∈ l.foldl insertNew acc ↔ x ∈ acc ∨ x ∈ l := by
  intro l
  induction l with
  | nil => simp
  | cons a as ih =>
    intro acc x
    rw [List.foldl_cons, ih, mem_insertNew]
    simp only [List.mem_cons]
    tauto

theorem length_insertNew (s : List Nat) (x : Nat) :
    (insertNew s x).length ≤ s.length + 1 := by
  unfold insertNew
  split <;> simp

theorem length_foldl_insertNew :
    ∀ (l acc : List Nat), (l.foldl insertNew acc).length ≤ acc.length + l.length := by
  intro l
  induction l with
  | nil => simp
  | cons a as ih =>
    intro acc
    rw [List.foldl_cons]
    calc (as.foldl insertNew (insertNew acc a)).length
        ≤ (insertNew acc a).length + as.length := ih _
      _ ≤ acc.length + 1 + as.length := by
          have := length_insertNew acc a
          omega
      _ = acc.length + (a :: as).length := by simp; omega

/-- A commit arises as the pairwise LCA of one of the index pairs in `ps`. -/
def PairLca (g : Graph) (fuel : Nat) (heads : List Nat)
    (ps : List (Nat × Nat)) (x : Nat) : Prop :=
  ∃ p ∈ ps, p.1 ≠ p.2 ∧ ∃ c1 c2, heads[p.1]? = some c1 ∧
    heads[p.2]? = some c2 ∧ find_lca g fuel c1 c2 = some x

theorem pairLca_cons (g : Graph) (fuel : Nat) (heads : List Nat)
    (p : Nat × Nat) (ps : List (Nat × Nat)) (x : Nat) :
    PairLca g fuel heads (p :: ps) x ↔
      (p.1 ≠ p.2 ∧ ∃ c1 c2, heads[p.1]? = some c1 ∧
        heads[p.2]? = some c2 ∧ find_lca g fuel c1 c2 = some x) ∨
      PairLca g fuel heads ps x := by
  unfold PairLca
  simp only [List.mem_cons]
  constructor
  · rintro ⟨q, (rfl | hq), hne, rest⟩
    · exact Or.inl ⟨hne, rest⟩
    · exact Or.inr ⟨q, hq, hne, rest⟩
  · rintro (⟨hne, rest⟩ | ⟨q, hq, hne, rest⟩)
    · exact ⟨p, Or.inl rfl, hne, rest⟩
    · exact ⟨q, Or.inr hq, hne, rest⟩

theorem relevantLoop_mem (g : Graph) (fuel : Nat) (heads : List Nat) :
    ∀ (ps : List (Nat × Nat)) (acc s : List Nat),
      relevantLoop g fuel heads ps acc = some s →
      ∀ x, x ∈ s ↔ x ∈ acc ∨ PairLca g fuel heads ps x := by
  intro ps
  induction ps with
  | nil =>
    intro acc s h x
    have hs : acc = s := by simpa [relevantLoop] using h
    subst hs
    simp [PairLca]
  | cons p ps ih =>
    intro acc s h x
    rw [relevantLoop] at h
    rw [pairLca_cons]
    by_cases hpq : p.1 = p.2
    · rw [if_pos hpq] at h
      rw [ih acc s h x]
      have : ¬ (p.1 ≠ p.2 ∧ ∃ c1 c2, heads[p.1]? = some c1 ∧
          heads[p.2]? = some c2 ∧ find_lca g fuel c1 c2 = some x) := by
        rintro ⟨hne, _⟩
        exact hne hpq
      tauto
    · rw [if_neg hpq] at h
      cases h1 : heads[p.1]? with
      | none =>
        rw [h1] at h
        rw [ih acc s h x]
        have : ¬ (p.1 ≠ p.2 ∧ ∃ c1 c2, heads[p.1]? = some c1 ∧
            heads[p.2]? = some c2 ∧ find_lca g fuel c1 c2 = some x) := by
          rintro ⟨_, c1, c2, hc1, _⟩
          rw [h1] at hc1
          exact Option.noConfusion hc1
        tauto
      | some c1 =>
        rw [h1] at h
        cases h2 : heads[p.2]? with
        | none =>
          rw [h2] at h
          rw [ih acc s h x]
          have : ¬ (p.1 ≠ p.2 ∧ ∃ c1 c2, heads[p.1]? = some c1 ∧
              heads[p.2]? = some c2 ∧ find_lca g fuel c1 c2 = some x) := by
            rintro ⟨_, c1', c2', _, hc2, _⟩
            rw [h2] at hc2
            exact Option.noConfusion hc2
          tauto
        | some c2 =>
          rw [h2] at h
          simp only [] at h
          cases hl : find_lca g fuel c1 c2 with
          | none => rw [hl] at h; simp at h
          | some l =>
            rw [hl] at h
            rw [ih (insertNew acc l) s h x, mem_insertNew]
            constructor
            · rintro ((hx | rfl) | hrest)
              · exact Or.inl hx
              · exact Or.inr (Or.inl ⟨hpq, c1, c2, rfl, rfl, hl⟩)
              · exact Or.inr (Or.inr hrest)
            · rintro (hx | (⟨_, c1', c2', hc1', hc2', hl'⟩ | hrest))
              · exact Or.inl (Or.inl hx)
              · obtain rfl : c1 = c1' := by simpa using hc1'
                obtain rfl : c2 = c2' := by simpa using hc2'
                rw [hl] at hl'
                obtain rfl : l = x := by simpa using hl'
                exact Or.inl (Or.inr rfl)
              · exact Or.inr hrest

theorem relevantLoop_length (g : Graph) (fuel : Nat) (heads : List Nat) :
    ∀ (ps : List (Nat × Nat)) (acc s : List Nat),
      relevantLoop g fuel heads ps acc = some s →
      s.length ≤ acc.length + ps.countP (fun p => decide (p.1 ≠ p.2)) := by
  intro ps
  induction ps with
  | nil =>
    intro acc s h
    have hs : acc = s := by simpa [relevantLoop] using h
    subst hs
    simp
  | cons p ps ih =>
    intro acc s h
    rw [relevantLoop] at h
    by_cases hpq : p.1 = p.2
    · rw [if_pos hpq] at h
      have := ih acc s h
      have hc : (List.countP (fun p => decide (p.1 ≠ p.2)) (p :: ps)) =
          List.countP (fun p => decide (p.1 ≠ p.2)) ps :=
        List.countP_cons_of_neg _ _ (by simp [hpq])
      omega
    · rw [if_neg hpq] at h
      have hc : (List.countP (fun p => decide (p.1 ≠ p.2)) (p :: ps)) =
          List.countP (fun p => decide (p.1 ≠ p.2)) ps + 1 :=
        List.countP_cons_of_pos _ _ (by simp [hpq])
      cases h1 : heads[p.1]? with
      | none =>
        rw [h1] at h
        have := ih acc s h
        omega
      | some c1 =>
        rw [h1] at h
        cases h2 : heads[p.2]? with
        | none =>
          rw [h2] at h
          have := ih acc s h
          omega
        | some c2 =>
          rw [h2] at h
          simp only [] at h
          cases hl : find_lca g fuel c1 c2 with
          | none => rw [hl] at h; simp at h
          | some l =>
            rw [hl] at h
            have := ih (insertNew acc l) s h
            have hlen := length_insertNew acc l
            omega

theorem relevantLoop_computed (g : Graph) (fuel : Nat) (heads : List Nat) :
    ∀ (ps : List (Nat × Nat)) (acc s : List Nat),
      relevantLoop g fuel heads ps acc = some s →
      ∀ p ∈ ps, p.1 ≠ p.2 → ∀ c1 c2, heads[p.1]? = some c1 →
        heads[p.2]? = some c2 → ∃ v, find_lca g fuel c1 c2 = some v := by
  intro ps
  induction ps with
  | nil => intro acc s _ p hp; simp at hp
  | cons q ps ih =>
    intro acc s h p hp hne c1 c2 hc1 hc2
    rw [relevantLoop] at h
    rcases List.mem_cons.mp hp with rfl | hp
    · rw [if_neg hne, hc1, hc2] at h
      simp only [] at h
      cases hl : find_lca g fuel c1 c2 with
      | none => rw [hl] at h; simp at h
      | some l => exact ⟨l, rfl⟩
    · by_cases hq : q.1 = q.2
      · rw [if_pos hq] at h
        exact ih acc s h p hp hne c1 c2 hc1 hc2
      · rw [if_neg hq] at h
        cases h1 : heads[q.1]? with
        | none => rw [h1] at h; exact ih acc s h p hp hne c1 c2 hc1 hc2
        | some d1 =>
          rw [h1] at h
          cases h2 : heads[q.2]? with
          | none => rw [h2] at h; exact ih acc s h p hp hne c1 c2 hc1 hc2
          | some d2 =>
            rw [h2] at h
            simp only [] at h
            cases hl : find_lca g fuel d1 d2 with
            | none => rw [hl] at h; simp at h
            | some l =>
              rw [hl] at h
              exact ih (insertNew acc l) s h p hp hne c1 c2 hc1 hc2

theorem mem_allPairs (n : Nat) (p : Nat × Nat) :
    p ∈ allPairs n ↔ p.1 < n ∧ p.2 < n := by
  cases p with
  | mk i j => simp [allPairs, List.mem_flatMap, eq_comm]

theorem countP_ne_mem_le (i : Nat) :
    ∀ l : List Nat, i ∈ l →
      l.countP (fun j => decide (i ≠ j)) ≤ l.length - 1 := by
  intro l
  induction l with
  | nil => simp
  | cons a as ih =>
    intro hmem
    by_cases ha : i = a
    · subst ha
      have h1 : List.countP (fun j => decide (i ≠ j)) (i :: as) =
          List.countP (fun j => decide (i ≠ j)) as :=
        List.countP_cons_of_neg _ _ (by simp)
      have h2 := List.countP_le_length (p := fun j => decide (i ≠ j)) (l := as)
      simp only [h1, List.length_cons]
      omega
    · have hmem' : i ∈ as := by
        rcases List.mem_cons.mp hmem with h | h
        · exact absurd h ha
        · exact h
      have h1 : List.countP (fun j => decide (i ≠ j)) (a :: as) =
          List.countP (fun j => decide (i ≠ j)) as + 1 :=
        List.countP_cons_of_pos _ _ (by simpa using ha)
      have h2 := ih hmem'
      have h3 : as ≠ [] := by rintro rfl; simp at hmem'
      have h4 : 1 ≤ as.length := by
        cases as with
        | nil => exact absurd rfl h3
        | cons _ _ => simp
      simp only [h1, List.length_cons]
      omega

theorem countP_row_le (n i : Nat) (hi : i < n) :
    ((List.range n).map (fun j => ((i, j) : Nat × Nat))).countP
      (fun p => decide (p.1 ≠ p.2)) ≤ n - 1 := by
  rw [List.countP_map]
  have heq : ((fun p : Nat × Nat => decide (p.1 ≠ p.2)) ∘ (fun j => ((i, j) : Nat × Nat))) =
      (fun j => decide (i ≠ j)) := by
    funext j
    simp
  rw [heq]
  have := countP_ne_mem_le i (List.range n) (List.mem_range.mpr hi)
  simpa using this

theorem countP_allPairs_le (n : Nat) :
    (allPairs n).countP (fun p => decide (p.1 ≠ p.2)) ≤ n * (n - 1) := by
  unfold allPairs
  have : ∀ (l : List Nat), (∀ i ∈ l, i < n) →
      ((l.flatMap (fun i => (List.range n).map (fun j => ((i, j) : Nat × Nat)))).countP
        (fun p => decide (p.1 ≠ p.2))) ≤ l.length * (n - 1) := by
    intro l
    induction l with
    | nil => simp
    | cons a as ih =>
      intro hmem
      rw [List.flatMap_cons, List.countP_append]
      have h1 := countP_row_le n a (hmem a (List.mem_cons_self a as))
      have h2 := ih (fun i hi => hmem i (List.mem_cons_of_mem a hi))
      have : (a :: as).length * (n - 1) = (n - 1) + as.length * (n - 1) := by
        simp [Nat.succ_mul]
        omega
      omega
  have := this (List.range n) (fun i hi => List.mem_range.mp hi)
  simpa using this

/-- Claim C4: whenever `find_relevant_commits(heads)` returns, the returned
key set contains every head, equals the deduplicated union of the heads
with the pairwise LCAs over all ordered index pairs `i ≠ j`, and its size
never exceeds `|heads| + |heads|·(|heads|-1)`. -/
theorem C4_relevant_set (g : Graph) (fuel : Nat) (heads s : List Nat)
    (h : find_relevant_commits g fuel heads = some s) :
    (∀ x ∈ heads, x ∈ s) ∧
    (∀ x, x ∈ s ↔ x ∈ heads ∨ ∃ i j : Nat, i ≠ j ∧ ∃ c1 c2,
        heads[i]? = some c1 ∧ heads[j]? = some c2 ∧
        find_lca g fuel c1 c2 = some x) ∧
    s.length ≤ heads.length + heads.length * (heads.length - 1) := by
  unfold find_relevant_commits at h
  have hchar : ∀ x, x ∈ s ↔ x ∈ heads ∨ ∃ i j : Nat, i ≠ j ∧ ∃ c1 c2,
      heads[i]? = some c1 ∧ heads[j]? = some c2 ∧
      find_lca g fuel c1 c2 = some x := by
    intro x
    rw [relevantLoop_mem g fuel heads (allPairs heads.length)
      (heads.foldl insertNew []) s h x, mem_foldl_insertNew]
    simp only [List.not_mem_nil, false_or]
    constructor
    · rintro (hx | ⟨p, hp, hne, c1, c2, hc1, hc2, hl⟩)
      · exact Or.inl hx
      · exact Or.inr ⟨p.1, p.2, hne, c1, c2, hc1, hc2, hl⟩
    · rintro (hx | ⟨i, j, hne, c1, c2, hc1, hc2, hl⟩)
      · exact Or.inl hx
      · refine Or.inr ⟨(i, j), ?_, hne, c1, c2, hc1, hc2, hl⟩
        rw [mem_allPairs]
        constructor
        · obtain ⟨hi, _⟩ := List.getElem?_eq_some_iff.mp hc1
          exact hi
        · obtain ⟨hj, _⟩ := List.getElem?_eq_some_iff.mp hc2
          exact hj
  refine ⟨fun x hx => (hchar x).mpr (Or.inl hx), hchar, ?_⟩
  have h1 := relevantLoop_length g fuel heads (allPairs heads.length)
    (heads.foldl insertNew []) s h
  have h2 := length_foldl_insertNew heads []
  have h3 := countP_allPairs_le heads.length
  simp only [List.length_nil, Nat.zero_add] at h2
  omega

theorem C4_witness :
    (∀ x ∈ [4, 5], x ∈ [4, 5, 2]) ∧
    (∀ x, x ∈ [4, 5, 2] ↔ x ∈ [4, 5] ∨ ∃ i j : Nat, i ≠ j ∧ ∃ c1 c2,
        ([4, 5] : List Nat)[i]? = some c1 ∧ ([4, 5] : List Nat)[j]? = some c2 ∧
        find_lca gW 10 c1 c2 = some x) ∧
    [4, 5, 2].length ≤ [4, 5].length + [4, 5].length * ([4, 5].length - 1) :=
  C4_relevant_set gW 10 [4, 5] [4, 5, 2] rfl

-- Lemmas about the backward walk.

theorem map_snd_zip_take (α β : Type) :
    ∀ (l1 : List α) (l2 : List β),
      (l1.zip l2).map Prod.snd = l2.take l1.length := by
  intro l1
  induction l1 with
  | nil => intro l2; simp
  | cons a as ih =>
    intro l2
    cases l2 with
    | nil => simp
    | cons b bs => simp [ih bs]

theorem walkLoop_acc (g : Graph) (render created : List Nat) :
    ∀ fuel (c : Nat) (ab : Int) (growth : List Nat) (gaps : List Int),
      walkLoop g render created fuel c ab growth gaps =
        match walkLoop g render created fuel c ab [] [] with
        | WalkRes.ok dG dN => WalkRes.ok (growth ++ dG) (gaps ++ dN)
        | other => other := by
  intro fuel
  induction fuel with
  | zero => intros; rfl
  | succ fuel ih =>
    intro c ab growth gaps
    by_cases hc : c ∈ created
    · by_cases hr : c ∈ render <;>
        simp [walkLoop, hc, hr]
    · cases hp : g.parent c with
      | none =>
        by_cases hr : c ∈ render <;>
          simp [walkLoop, hc, hr, hp]
      | some p =>
        by_cases hr : c ∈ render
        · simp only [walkLoop, hc, hr, hp, if_true, if_false, ite_true, ite_false,
            List.nil_append]
          rw [ih p (0 + 1) (growth ++ [c]) (gaps ++ [ab - 1]), ih p (0 + 1) [c] [ab - 1]]
          cases walkLoop g render created fuel p (0 + 1) [] [] <;> simp
        · simp only [walkLoop, hc, hr, hp, if_true, if_false, ite_true, ite_false]
          rw [ih p (ab + 1) growth gaps, ih p (ab + 1) [] []]

theorem walkPath_ne_nil (g : Graph) (created : List Nat) :
    ∀ fuel c P, walkPath g created fuel c = some P → P ≠ [] := by
  intro fuel
  induction fuel with
  | zero => intro c P h; simp [walkPath] at h
  | succ fuel ih =>
    intro c P h
    rw [walkPath] at h
    by_cases hc : c ∈ created
    · rw [if_pos hc] at h
      obtain rfl : [c] = P := by simpa using h
      simp
    · rw [if_neg hc] at h
      cases hp : g.parent c with
      | none => rw [hp] at h; simp at h
      | some p =>
        simp only [hp] at h
        cases hw : walkPath g created fuel p with
        | none => rw [hw] at h; simp at h
        | some P' =>
          rw [hw] at h
          obtain rfl : c :: P' = P := by simpa using h
          simp

/-- Invariant of one backward walk (empty accumulators): the appended
commits are exactly the relevant commits on the visited path, the two
appended lists stay in lockstep, the appended gap counts sum to the path
length minus the number of appended commits (offset by the starting
counter), and the first appended gap is the starting counter minus one. -/
theorem walk_sum (g : Graph) (render created : List Nat) :
    ∀ fuel (c : Nat) (ab : Int) (G : List Nat) (N : List Int) (P : List Nat),
      walkLoop g render created fuel c ab [] [] = WalkRes.ok G N →
      walkPath g created fuel c = some P →
      (∀ a, P.getLast? = some a → a ∈ render) →
      G = P.filter (fun x => decide (x ∈ render)) ∧
      G.length = N.length ∧
      N.sum + (G.length : Int) = ab + (P.length : Int) - 1 ∧
      (c ∈ render → ∃ N', N = (ab - 1) :: N') := by
  intro fuel
  induction fuel with
  | zero => intro c ab G N P hw; simp [walkLoop] at hw
  | succ fuel ih =>
    intro c ab G N P hw hp hrend
    by_cases hc : c ∈ created
    · have hP : P = [c] := by
        rw [walkPath, if_pos hc] at hp
        simpa using hp.symm
      subst hP
      have hcr : c ∈ render := hrend c (by simp)
      simp only [walkLoop, hc, hcr, if_true, ite_true, List.nil_append] at hw
      obtain ⟨rfl, rfl⟩ : [c] = G ∧ [ab - 1] = N := by simpa using hw
      refine ⟨by simp [hcr], by simp, ?_, fun _ => ⟨[], rfl⟩⟩
      simp
    · rw [walkPath, if_neg hc] at hp
      cases hpar : g.parent c with
      | none =>
        rw [hpar] at hp
        simp at hp
      | some p =>
        simp only [hpar] at hp
        cases hwp : walkPath g created fuel p with
        | none => rw [hwp] at hp; simp at hp
        | some P' =>
          rw [hwp] at hp
          obtain rfl : c :: P' = P := by simpa using hp
          have hP'ne : P' ≠ [] := walkPath_ne_nil g created fuel p P' hwp
          have hrend' : ∀ a, P'.getLast? = some a → a ∈ render := by
            intro a ha
            apply hrend a
            cases P' with
            | nil => exact absurd rfl hP'ne
            | cons x xs => rw [List.getLast?_cons_cons]; exact ha
          by_cases hcr : c ∈ render
          · simp only [walkLoop, hc, hcr, hpar, if_true, if_false, ite_true,
              ite_false, List.nil_append] at hw
            rw [walkLoop_acc g render created fuel p (0 + 1) [c] [ab - 1]] at hw
            cases hrec : walkLoop g render created fuel p (0 + 1) [] [] with
            | noParent => rw [hrec] at hw; simp at hw
            | fuelOut => rw [hrec] at hw; simp at hw
            | ok dG dN =>
              rw [hrec] at hw
              obtain ⟨rfl, rfl⟩ : c :: dG = G ∧ (ab - 1) :: dN = N := by
                simpa using hw
              obtain ⟨ihf, ihl, ihs, _⟩ := ih p (0 + 1) dG dN P' hrec hwp hrend'
              refine ⟨?_, by simp [ihl], ?_, fun _ => ⟨dN, rfl⟩⟩
              · simp [List.filter_cons, hcr, ihf]
              · simp only [List.sum_cons, List.length_cons, List.length_cons]
                push_cast
                push_cast at ihs
                omega
          · simp only [walkLoop, hc, hcr, hpar, if_true, if_false, ite_true,
              ite_false, List.nil_append] at hw
            rw [walkLoop_acc g render created fuel p (ab + 1) [] []] at hw
            cases hrec : walkLoop g render created fuel p (ab + 1) [] [] with
            | noParent => rw [hrec] at hw; simp at hw
            | fuelOut => rw [hrec] at hw; simp at hw
            | ok dG dN =>
              rw [hrec] at hw
              obtain ⟨rfl, rfl⟩ : dG = G ∧ dN = N := by simpa using hw
              obtain ⟨ihf, ihl, ihs, _⟩ := ih p (ab + 1) dG dN P' hrec hwp hrend'
              refine ⟨?_, ihl, ?_, fun hcr' => absurd hcr' hcr⟩
              · simp [List.filter_cons, hcr, ihf]
              · simp only [List.length_cons]
                push_cast
                omega

/-- Claim C5: for a head whose chain is built by the backward walk, with
`L` the full primary-parent path length from the head to its anchor and `k`
the number of relevant commits on that path with the anchor excluded, the
sum of the gap counts in the consumed chain plus `k` equals `L`. -/
theorem C5_gap_sum (g : Graph) (render created : List Nat) (fuel : Nat)
    (h : Nat) (growth : List Nat) (gaps : List Int) (P : List Nat)
    (anchor : Nat)
    (hw : walkLoop g render created fuel h 0 [] [] = WalkRes.ok growth gaps)
    (hp : walkPath g created fuel h = some P)
    (hh : h ∈ render)
    (hlast : P.getLast? = some anchor)
    (hanc : anchor ∈ render) :
    ((chainPairs growth gaps).map Prod.snd).sum +
      ((P.dropLast.filter (fun x => decide (x ∈ render))).length : Int) =
    (P.length : Int) - 1 := by
  have hrend : ∀ a, P.getLast? = some a → a ∈ render := by
    intro a ha
    rw [hlast] at ha
    obtain rfl : anchor = a := by simpa using ha
    exact hanc
  obtain ⟨hfil, hlen, hsum, hhead⟩ :=
    walk_sum g render created fuel h 0 growth gaps P hw hp hrend
  obtain ⟨N', rfl⟩ := hhead hh
  -- the consumed gap list is the reversed gap list without its last entry
  have hmap : (chainPairs growth (((0 : Int) - 1) :: N')).map Prod.snd =
      N'.reverse := by
    unfold chainPairs
    rw [map_snd_zip_take]
    have h1 : (growth.reverse.drop 1).length = growth.length - 1 := by
      simp
    rw [h1, hlen]
    have h2 : ((((0 : Int) - 1) :: N').reverse).take
        ((((0 : Int) - 1) :: N').length - 1) =
        ((((0 : Int) - 1) :: N').reverse).dropLast := by
      rw [List.dropLast_eq_take]
      simp
    rw [h2]
    rw [List.reverse_cons, List.dropLast_concat]
  rw [hmap]
  -- split the path at the anchor
  have hPne : P ≠ [] := walkPath_ne_nil g created fuel h P hp
  have hPsplit : P.dropLast ++ [anchor] = P :=
    List.dropLast_append_getLast? anchor (Option.mem_def.mpr hlast)
  have hfil' : growth = P.dropLast.filter (fun x => decide (x ∈ render)) ++ [anchor] := by
    rw [hfil]
    conv_lhs => rw [← hPsplit]
    rw [List.filter_append]
    simp [hanc]
  have hglen : growth.length =
      (P.dropLast.filter (fun x => decide (x ∈ render))).length + 1 := by
    rw [hfil']
    simp
  have hsum' : (((0 : Int) - 1) :: N').sum = -1 + N'.sum := by simp
  have hrevsum : N'.reverse.sum = N'.sum := List.sum_reverse N'
  rw [hrevsum]
  rw [hsum'] at hsum
  rw [hglen] at hsum
  push_cast at hsum ⊢
  omega

theorem C5_witness :
    ((chainPairs [4, 2] [-1, 1]).map Prod.snd).sum +
      ((([4, 3, 2] : List Nat).dropLast.filter
        (fun x => decide (x ∈ ([4, 5, 2] : List Nat)))).length : Int) =
    ((([4, 3, 2] : List Nat)).length : Int) - 1 :=
  C5_gap_sum gW [4, 5, 2] [2] 10 4 [4, 2] [-1, 1] [4, 3, 2] 2
    rfl rfl (by decide) rfl (by decide)

-- Claim C6: what the assembly appends per chain entry.

/-- Claim C6 (counterexample): for a chain entry with gap count 2, the
assembly appends three AbbreviationMarker nodes before the commit node,
not exactly one. -/
theorem C6_counterexample :
    ((entryNodes gW [4, 5] 4 2).filter
      (fun nd => nd.role == Role.abbrevMark)).length = 3 ∧
    ¬ ((entryNodes gW [4, 5] 4 2).filter
      (fun nd => nd.role == Role.abbrevMark)).length = 1 := by
  decide

/-- Claim C6 (amended): for each consumed chain entry whose gap count is
strictly positive, exactly three AbbreviationMarker nodes are appended
before the commit node — the middle one annotated with the literal gap
count, the flanking two unannotated — and each appended commit node is
tagged Head if the commit is one of the original heads and Regular
otherwise. -/
theorem C6_assembly_nodes (g : Graph) (heads : List Nat) (c : Nat)
    (ab : Int) :
    (ab > 0 → entryNodes g heads c ab =
      [copy_commit g c Role.abbrevMark none,
       copy_commit g c Role.abbrevMark (some ab),
       copy_commit g c Role.abbrevMark none,
       copy_commit g c (if c ∈ heads then Role.head else Role.regular) none] ∧
      (entryNodes g heads c ab).countP (fun nd => nd.annot == some ab) = 1) ∧
    (¬ ab > 0 → entryNodes g heads c ab =
      [copy_commit g c (if c ∈ heads then Role.head else Role.regular) none]) := by
  constructor
  · intro hab
    constructor
    · simp [entryNodes, hab]
    · simp [entryNodes, hab, copy_commit, List.countP_cons]
  · intro hab
    simp [entryNodes, hab]

theorem C6_witness :
    entryNodes gW [4, 5] 4 2 =
      [copy_commit gW 4 Role.abbrevMark none,
       copy_commit gW 4 Role.abbrevMark (some 2),
       copy_commit gW 4 Role.abbrevMark none,
       copy_commit gW 4 (if 4 ∈ [4, 5] then Role.head else Role.regular) none] ∧
    (entryNodes gW [4, 5] 4 2).countP (fun nd => nd.annot == some 2) = 1 :=
  (C6_assembly_nodes gW [4, 5] 4 2).1 (by decide)

-- Claim C10: timestamps carried by every created faux commit.

/-- The two timestamp fields of a faux node agree with the graph's metadata
for the commit it was copied from. -/
def NodeOk (g : Graph) (nd : FauxNode) : Prop :=
  nd.authorDate = (g.authoredDate nd.src, g.authorTzOffset nd.src) ∧
  nd.commitDate = (g.committedDate nd.src, g.committerTzOffset nd.src)

theorem nodeOk_copy (g : Graph) (c : Nat) (role : Role) (annot : Option Int) :
    NodeOk g (copy_commit g c role annot) := by
  simp [NodeOk, copy_commit]

theorem entryNodes_src (g : Graph) (heads : List Nat) (c : Nat) (ab : Int) :
    ∀ nd ∈ entryNodes g heads c ab, nd.src = c ∧ NodeOk g nd := by
  intro nd hnd
  by_cases hab : ab > 0 <;>
  · simp only [entryNodes, hab, if_true, if_false, ite_true, ite_false,
      List.nil_append, List.cons_append, List.mem_cons,
      List.not_mem_nil, or_false] at hnd
    rcases hnd with rfl | rfl | rfl | rfl <;>
      simp [copy_commit, NodeOk]

theorem asmLoop_nodeOk (g : Graph) (heads render : List Nat) (fuel : Nat) :
    ∀ (hs : List Nat) (nodes : List FauxNode) (created : List Nat)
      (nodes' : List FauxNode) (created' : List Nat),
      (∀ nd ∈ nodes, NodeOk g nd) →
      asmLoop g heads render fuel hs nodes created = AsmRes.ok nodes' created' →
      ∀ nd ∈ nodes', NodeOk g nd := by
  intro hs
  induction hs with
  | nil =>
    intro nodes created nodes' created' hok h
    obtain ⟨rfl, rfl⟩ : nodes = nodes' ∧ created = created' := by
      simpa [asmLoop] using h
    exact hok
  | cons hd hs ih =>
    intro nodes created nodes' created' hok h
    rw [asmLoop] at h
    cases hw : walkLoop g render created fuel hd 0 [] [] with
    | fuelOut => rw [hw] at h; simp at h
    | noParent => rw [hw] at h; simp at h
    | ok growth gaps =>
      rw [hw] at h
      simp only [] at h
      cases hb : growth.reverse.head? with
      | none => rw [hb] at h; simp at h
      | some bud =>
        rw [hb] at h
        simp only [] at h
        by_cases hbc : bud ∈ created
        · rw [if_pos hbc] at h
          refine ih _ _ nodes' created' ?_ h
          intro nd hnd
          rcases List.mem_append.mp hnd with hnd | hnd
          · exact hok nd hnd
          · obtain ⟨pr, _, hpr⟩ := List.mem_flatMap.mp hnd
            exact (entryNodes_src g heads pr.1 pr.2 nd hpr).2
        · rw [if_neg hbc] at h
          simp at h

/-- Claim C10: every faux commit created during assembly carries the
author and committer timestamps, with their original timezone offsets, of
the original commit it was copied from; the synthetic abbreviation-marker
nodes are copied from — and hence reuse the timestamps of — the commit
they precede. -/
theorem C10_timestamps (g : Graph) (heads render : List Nat) (root : Nat)
    (fuel : Nat) (nodes : List FauxNode) (created : List Nat)
    (h : assembleAll g heads render root fuel = AsmRes.ok nodes created) :
    (∀ nd ∈ nodes,
      nd.authorDate = (g.authoredDate nd.src, g.authorTzOffset nd.src) ∧
      nd.commitDate = (g.committedDate nd.src, g.committerTzOffset nd.src)) ∧
    (∀ c ab, ∀ nd ∈ entryNodes g heads c ab, nd.src = c) := by
  constructor
  · intro nd hnd
    refine asmLoop_nodeOk g heads render fuel heads
      [rootNode g heads root] [root] nodes created ?_ h nd hnd
    intro nd' hnd'
    obtain rfl : nd' = rootNode g heads root := by simpa using hnd'
    exact nodeOk_copy g root _ _
  · intro c ab nd hnd
    exact (entryNodes_src g heads c ab nd hnd).1

/-- The faux commits assembled for heads `[4, 5]` in the witness tree. -/
def c10NodesW : List FauxNode :=
  [⟨Role.regular, none, 2, (2, 60), (102, -120)⟩,
   ⟨Role.abbrevMark, none, 4, (4, 60), (104, -120)⟩,
   ⟨Role.abbrevMark, some 1, 4, (4, 60), (104, -120)⟩,
   ⟨Role.abbrevMark, none, 4, (4, 60), (104, -120)⟩,
   ⟨Role.head, none, 4, (4, 60), (104, -120)⟩,
   ⟨Role.head, none, 5, (5, 60), (105, -120)⟩]

theorem C10_witness :
    (∀ nd ∈ c10NodesW,
      nd.authorDate = (gW.authoredDate nd.src, gW.authorTzOffset nd.src) ∧
      nd.commitDate = (gW.committedDate nd.src, gW.committerTzOffset nd.src)) ∧
    (∀ c ab, ∀ nd ∈ entryNodes gW [4, 5] c ab, nd.src = c) :=
  C10_timestamps gW [4, 5] [4, 5, 2] 2 10 c10NodesW [2, 4, 5] (by decide)

-- Lemmas for the postprocessing pass.

theorem leadsWith_iff (pat : List Char) :
    ∀ s, leadsWith pat s = true ↔ ∃ t, s = pat ++ t := by
  induction pat with
  | nil => intro s; simp [leadsWith]
  | cons p ps ih =>
    intro s
    cases s with
    | nil =>
      simp [leadsWith]
    | cons c cs =>
      rw [leadsWith]
      constructor
      · intro h
        obtain ⟨hpc, hlw⟩ := (Bool.and_eq_true _ _).mp h
        obtain rfl : p = c := by simpa using hpc
        obtain ⟨t, rfl⟩ := (ih cs).mp hlw
        exact ⟨t, rfl⟩
      · rintro ⟨t, ht⟩
        obtain ⟨rfl, rfl⟩ : p = c ∧ cs = ps ++ t := by
          constructor
          · exact (List.cons.injEq .. ▸ ht).1.symm
          · exact (List.cons.injEq .. ▸ ht).2
        simp [(ih (ps ++ t)).mpr ⟨t, rfl⟩]

theorem leadsWith_length_le (pat s : List Char)
    (h : leadsWith pat s = true) : pat.length ≤ s.length := by
  obtain ⟨t, rfl⟩ := (leadsWith_iff pat s).mp h
  simp

theorem leadsWith_extend (pat s v : List Char)
    (h : leadsWith pat s = true) : leadsWith pat (s ++ v) = true := by
  obtain ⟨t, rfl⟩ := (leadsWith_iff pat s).mp h
  exact (leadsWith_iff pat _).mpr ⟨t ++ v, by simp⟩

theorem leadsWith_of_split (p q s : List Char)
    (h : leadsWith (p ++ q) s = true) : leadsWith p s = true := by
  obtain ⟨t, rfl⟩ := (leadsWith_iff (p ++ q) s).mp h
  exact (leadsWith_iff p _).mpr ⟨q ++ t, by simp⟩

theorem leadsWith_self_append (pat t : List Char) :
    leadsWith pat (pat ++ t) = true :=
  (leadsWith_iff pat _).mpr ⟨t, rfl⟩

theorem strFind_spec (pat : List Char) :
    ∀ s i, strFind pat s = some i →
      leadsWith pat (s.drop i) = true ∧
      ∀ j, j < i → leadsWith pat (s.drop j) = false := by
  intro s
  induction s with
  | nil =>
    intro i h
    rw [strFind] at h
    by_cases hl : leadsWith pat [] = true
    · rw [if_pos hl] at h
      obtain rfl : (0 : Nat) = i := by simpa using h
      exact ⟨hl, fun j hj => absurd hj (by omega)⟩
    · rw [if_neg hl] at h
      simp at h
  | cons c cs ih =>
    intro i h
    rw [strFind] at h
    by_cases hl : leadsWith pat (c :: cs) = true
    · rw [if_pos hl] at h
      obtain rfl : (0 : Nat) = i := by simpa using h
      exact ⟨hl, fun j hj => absurd hj (by omega)⟩
    · rw [if_neg hl] at h
      cases hf : strFind pat cs with
      | none => rw [hf] at h; simp at h
      | some i' =>
        rw [hf] at h
        obtain rfl : i' + 1 = i := by simpa using h
        obtain ⟨h1, h2⟩ := ih i' hf
        refine ⟨by simpa using h1, ?_⟩
        intro j hj
        cases j with
        | zero =>
          simp only [List.drop_zero]
          exact Bool.not_eq_true _ ▸ (by simpa using hl)
        | succ j' =>
          have : j' < i' := by omega
          simpa using h2 j' this

theorem strFind_none_spec (pat : List Char) :
    ∀ s, strFind pat s = none →
      ∀ j, leadsWith pat (s.drop j) = false := by
  intro s
  induction s with
  | nil =>
    intro h j
    rw [strFind] at h
    by_cases hl : leadsWith pat [] = true
    · rw [if_pos hl] at h; simp at h
    · rw [if_neg hl] at h
      simpa using hl
  | cons c cs ih =>
    intro h j
    rw [strFind] at h
    by_cases hl : leadsWith pat (c :: cs) = true
    · rw [if_pos hl] at h; simp at h
    · rw [if_neg hl] at h
      cases hf : strFind pat cs with
      | some i' => rw [hf] at h; simp at h
      | none =>
        cases j with
        | zero => simpa using hl
        | succ j' => simpa using ih hf j'

theorem containsSub_iff (pat s : List Char) :
    containsSub pat s = true ↔ ∃ j, leadsWith pat (s.drop j) = true := by
  unfold containsSub
  constructor
  · intro h
    cases hf : strFind pat s with
    | none => rw [hf] at h; simp at h
    | some i => exact ⟨i, (strFind_spec pat s i hf).1⟩
  · rintro ⟨j, hj⟩
    cases hf : strFind pat s with
    | none =>
      have := strFind_none_spec pat s hf j
      rw [this] at hj
      simp at hj
    | some i => simp

theorem replaceFirst_append_mem (a b : Char) :
    ∀ (s t : List Char), a ∈ s →
      replaceFirst (s ++ t) a b = replaceFirst s a b ++ t := by
  intro s
  induction s with
  | nil => intro t h; simp at h
  | cons c cs ih =>
    intro t h
    by_cases hca : c = a
    · simp [replaceFirst, hca]
    · have : a ∈ cs := by
        rcases List.mem_cons.mp h with h' | h'
        · exact absurd h'.symm hca
        · exact h'
      simp [replaceFirst, hca, ih t this]

theorem postprocess_eq_map (shaLen : Nat) :
    ∀ (lines acc : List (List Char)),
      lines.foldl (fun acc l => acc ++ [postprocLine shaLen l]) acc =
        acc ++ lines.map (postprocLine shaLen) := by
  intro lines
  induction lines with
  | nil => intro acc; simp
  | cons l ls ih =>
    intro acc
    rw [List.foldl_cons, ih]
    simp

theorem pyIndex_of_le (len n : Nat) (h : n ≤ len) :
    pyIndex len (n : Int) = n := by
  unfold pyIndex
  rw [if_neg (by omega)]
  simp
  omega

theorem pyslice_decomp (u v w : List Char) :
    pyslice (u ++ (v ++ w)) (u.length : Int)
      (((u.length + v.length : Nat) : Int)) = v := by
  unfold pyslice
  rw [pyIndex_of_le _ _ (by simp), pyIndex_of_le _ _ (by simp)]
  rw [List.take_append, List.take_left]
  rw [List.drop_left]

theorem pyslice_begin (u rest : List Char) :
    pyslice (u ++ rest) 0 (u.length : Int) = u := by
  unfold pyslice
  have h0 : pyIndex (u ++ rest).length 0 = 0 := by
    simp [pyIndex]
  rw [h0, pyIndex_of_le _ _ (by simp), List.take_left, List.drop_zero]

theorem pyslice_end (u w : List Char) :
    pyslice (u ++ w) (u.length : Int) (((u ++ w).length : Nat) : Int) = w := by
  unfold pyslice
  rw [pyIndex_of_le _ _ (by simp), pyIndex_of_le _ _ (le_refl _)]
  rw [List.take_length, List.drop_left]

theorem pyslice_end' (u v w : List Char) :
    pyslice (u ++ (v ++ w)) (((u.length + v.length : Nat) : Int))
      (((u ++ (v ++ w)).length : Nat) : Int) = w := by
  have h1 : u ++ (v ++ w) = (u ++ v) ++ w := by simp
  have h2 : u.length + v.length = (u ++ v).length := by simp
  rw [h1, h2]
  exact pyslice_end (u ++ v) w

/-- Evaluation of one postprocessing iteration on a well-formed node line
`pre ++ sha ++ ' ' ++ tag ++ ' ' ++ rest` whose first `COMMIT_` occurrence
is at the start of the tag. -/
theorem postprocLine_eval (shaLen : Nat) (pre sha tag rest : List Char)
    (hsha : sha.length = shaLen) (htag : tag.length = 12)
    (hfind : strFind COMMIT_MARK
        (pre ++ ((sha ++ ' ' :: (tag ++ [' '])) ++ rest)) =
      some (pre.length + shaLen + 1)) :
    postprocLine shaLen (pre ++ ((sha ++ ' ' :: (tag ++ [' '])) ++ rest)) =
      if containsSub COMMIT_ABBREV (sha ++ ' ' :: (tag ++ [' '])) = true then
        replaceFirst (pre ++ rest) '*' '|'
      else if containsSub COMMIT_HEAD (sha ++ ' ' :: (tag ++ [' '])) = true then
        replaceFirst (pre ++ rest) '*' '@'
      else pre ++ rest := by
  have hmid : (sha ++ ' ' :: (tag ++ [' '])).length = shaLen + 14 := by
    simp [hsha, htag]
  have h12 : COMMIT_TAG_LEN = 12 := rfl
  simp only [postprocLine, hfind]
  have hpe : ((pre.length + shaLen + 1 : Nat) : Int) + (COMMIT_TAG_LEN : Int) + 1 =
      (((pre.length + (sha ++ ' ' :: (tag ++ [' '])).length : Nat)) : Int) := by
    rw [h12, hmid]
    push_cast
    ring
  have hps : (((pre.length + (sha ++ ' ' :: (tag ++ [' '])).length : Nat)) : Int) -
      ((COMMIT_TAG_LEN : Int) + (shaLen : Int) + 2) = ((pre.length : Nat) : Int) := by
    rw [h12, hmid]
    push_cast
    ring
  rw [hpe, hps]
  rw [pyslice_decomp pre (sha ++ ' ' :: (tag ++ [' '])) rest]
  rw [pyslice_begin pre ((sha ++ ' ' :: (tag ++ [' '])) ++ rest)]
  rw [pyslice_end' pre (sha ++ ' ' :: (tag ++ [' '])) rest]

/-- Any occurrence of a full 12-character tag inside the sliced
`<sha> COMMIT_TYPEn ` span must align with the tag position (or one past
it), because the line's first `COMMIT_` occurrence is at the tag. -/
theorem occurrence_in_mid (shaLen : Nat) (pre sha tag rest pat mtail : List Char)
    (hsha : sha.length = shaLen) (htag : tag.length = 12)
    (hpat : pat.length = 12) (hsplit : pat = COMMIT_MARK ++ mtail)
    (hfind : strFind COMMIT_MARK
        (pre ++ ((sha ++ ' ' :: (tag ++ [' '])) ++ rest)) =
      some (pre.length + shaLen + 1))
    (hocc : containsSub pat (sha ++ ' ' :: (tag ++ [' '])) = true) :
    pat = tag ∨ leadsWith pat (tag.drop 1 ++ [' ']) = true := by
  obtain ⟨j, hj⟩ := (containsSub_iff pat _).mp hocc
  have hmid : (sha ++ ' ' :: (tag ++ [' '])).length = shaLen + 14 := by
    simp [hsha, htag]
  have hlen := leadsWith_length_le pat _ hj
  rw [List.length_drop, hmid, hpat] at hlen
  have hjle : j ≤ shaLen + 2 := by omega
  have hshaform : sha ++ ' ' :: (tag ++ [' ']) = (sha ++ [' ']) ++ (tag ++ [' ']) := by
    simp
  have hline : (pre ++ ((sha ++ ' ' :: (tag ++ [' '])) ++ rest)).drop (pre.length + j) =
      (sha ++ ' ' :: (tag ++ [' '])).drop j ++ rest := by
    rw [List.drop_append]
    rw [List.drop_append_of_le_length (by rw [hmid]; omega)]
  have hlw : leadsWith COMMIT_MARK
      ((pre ++ ((sha ++ ' ' :: (tag ++ [' '])) ++ rest)).drop (pre.length + j)) = true := by
    rw [hline]
    refine leadsWith_of_split COMMIT_MARK mtail _ ?_
    rw [← hsplit]
    exact leadsWith_extend pat _ rest hj
  obtain ⟨_, hmin⟩ := strFind_spec COMMIT_MARK _ _ hfind
  have hge : shaLen + 1 ≤ j := by
    by_contra hlt
    push_neg at hlt
    have hx := hmin (pre.length + j) (by omega)
    rw [hlw] at hx
    exact Bool.noConfusion hx
  have hj2 : j = shaLen + 1 ∨ j = shaLen + 2 := by omega
  rcases hj2 with rfl | rfl
  · left
    have hdrop : (sha ++ ' ' :: (tag ++ [' '])).drop (shaLen + 1) = tag ++ [' '] := by
      rw [hshaform]
      exact List.drop_left' (by simp [hsha])
    rw [hdrop] at hj
    obtain ⟨t, ht⟩ := (leadsWith_iff pat _).mp hj
    have := congrArg (List.take 12) ht
    rw [List.take_left' htag, List.take_left' hpat] at this
    exact this.symm
  · right
    have hdrop : (sha ++ ' ' :: (tag ++ [' '])).drop (shaLen + 2) =
        tag.drop 1 ++ [' '] := by
      rw [hshaform]
      have h1 : shaLen + 2 = (sha ++ [' ']).length + 1 := by simp [hsha]
      rw [h1, List.drop_append]
      exact List.drop_append_of_le_length (by omega)
    rw [hdrop] at hj
    exact hj

theorem containsSub_mid_self (sha tag : List Char) :
    containsSub tag (sha ++ ' ' :: (tag ++ [' '])) = true := by
  refine (containsSub_iff tag _).mpr ⟨sha.length + 1, ?_⟩
  have hform : sha ++ ' ' :: (tag ++ [' ']) = (sha ++ [' ']) ++ (tag ++ [' ']) := by
    simp
  have hdrop : (sha ++ ' ' :: (tag ++ [' '])).drop (sha.length + 1) = tag ++ [' '] := by
    rw [hform]
    exact List.drop_left' (by simp)
  rw [hdrop]
  exact leadsWith_self_append tag [' ']

theorem pyIndex_of_ge (len n : Nat) (h : len ≤ n) :
    pyIndex len (n : Int) = len := by
  unfold pyIndex
  rw [if_neg (by omega)]
  simp
  omega

/-- A slice whose stop index runs past the end is clamped to the end. -/
theorem pyslice_past_end (u v : List Char) (b : Nat)
    (hb : (u ++ v).length ≤ b) :
    pyslice (u ++ v) (u.length : Int) (b : Int) = v := by
  unfold pyslice
  rw [pyIndex_of_ge _ _ hb, pyIndex_of_le _ _ (by simp)]
  rw [List.take_length, List.drop_left]

/-- A slice that starts at or past the end is empty. -/
theorem pyslice_drop_all (s : List Char) (a b : Nat)
    (ha : s.length ≤ a) (hb : s.length ≤ b) :
    pyslice s (a : Int) (b : Int) = [] := by
  unfold pyslice
  rw [pyIndex_of_ge _ _ hb, pyIndex_of_ge _ _ ha]
  rw [List.take_length, List.drop_length]

theorem leadsWith_refl (pat : List Char) : leadsWith pat pat = true :=
  (leadsWith_iff pat pat).mpr ⟨[], by simp⟩

theorem containsSub_eol_self (sha tag : List Char) :
    containsSub tag (sha ++ ' ' :: tag) = true := by
  refine (containsSub_iff tag _).mpr ⟨sha.length + 1, ?_⟩
  have hform : sha ++ ' ' :: tag = (sha ++ [' ']) ++ tag := by simp
  have hdrop : (sha ++ ' ' :: tag).drop (sha.length + 1) = tag := by
    rw [hform]
    exact List.drop_left' (by simp)
  rw [hdrop]
  exact leadsWith_refl tag

/-- Evaluation of one postprocessing iteration on a line whose embedded tag
sits at the very end (the blank abbreviation-marker commits render as
`pre ++ sha ++ ' ' ++ tag` with nothing after the tag): the `prefix_end`
slice index runs one past the end of the line and Python clamps it, so the
stripped line is just the graph part `pre`. -/
theorem postprocLine_eval_eol (shaLen : Nat) (pre sha tag : List Char)
    (hsha : sha.length = shaLen) (htag : tag.length = 12)
    (hfind : strFind COMMIT_MARK (pre ++ (sha ++ ' ' :: tag)) =
      some (pre.length + shaLen + 1)) :
    postprocLine shaLen (pre ++ (sha ++ ' ' :: tag)) =
      if containsSub COMMIT_ABBREV (sha ++ ' ' :: tag) = true then
        replaceFirst pre '*' '|'
      else if containsSub COMMIT_HEAD (sha ++ ' ' :: tag) = true then
        replaceFirst pre '*' '@'
      else pre := by
  have hmid : (sha ++ ' ' :: tag).length = shaLen + 13 := by
    simp [hsha, htag]
  have h12 : COMMIT_TAG_LEN = 12 := rfl
  simp only [postprocLine, hfind]
  have hpe : ((pre.length + shaLen + 1 : Nat) : Int) + (COMMIT_TAG_LEN : Int) + 1 =
      (((pre.length + shaLen + 14 : Nat)) : Int) := by
    rw [h12]
    push_cast
    ring
  have hps : (((pre.length + shaLen + 14 : Nat)) : Int) -
      ((COMMIT_TAG_LEN : Int) + (shaLen : Int) + 2) =
      ((pre.length : Nat) : Int) := by
    rw [h12]
    push_cast
    ring
  rw [hpe, hps]
  rw [pyslice_past_end pre (sha ++ ' ' :: tag) (pre.length + shaLen + 14)
    (by simp [hmid]; omega)]
  rw [pyslice_begin pre (sha ++ ' ' :: tag)]
  rw [pyslice_drop_all (pre ++ (sha ++ ' ' :: tag)) (pre.length + shaLen + 14)
    ((pre ++ (sha ++ ' ' :: tag)).length) (by simp [hmid]; omega) (le_refl _)]
  simp

/-- Any occurrence of a full 12-character tag inside a bare end-of-line
`<sha> COMMIT_TYPEn` span must align exactly with the tag. -/
theorem occurrence_in_eol (shaLen : Nat) (pre sha tag pat mtail : List Char)
    (hsha : sha.length = shaLen) (htag : tag.length = 12)
    (hpat : pat.length = 12) (hsplit : pat = COMMIT_MARK ++ mtail)
    (hfind : strFind COMMIT_MARK (pre ++ (sha ++ ' ' :: tag)) =
      some (pre.length + shaLen + 1))
    (hocc : containsSub pat (sha ++ ' ' :: tag) = true) :
    pat = tag := by
  obtain ⟨j, hj⟩ := (containsSub_iff pat _).mp hocc
  have hmid : (sha ++ ' ' :: tag).length = shaLen + 13 := by
    simp [hsha, htag]
  have hlen := leadsWith_length_le pat _ hj
  rw [List.length_drop, hmid, hpat] at hlen
  have hjle : j ≤ shaLen + 1 := by omega
  have hline : (pre ++ (sha ++ ' ' :: tag)).drop (pre.length + j) =
      (sha ++ ' ' :: tag).drop j := List.drop_append j
  have hlw : leadsWith COMMIT_MARK
      ((pre ++ (sha ++ ' ' :: tag)).drop (pre.length + j)) = true := by
    rw [hline]
    exact leadsWith_of_split COMMIT_MARK mtail _ (hsplit ▸ hj)
  obtain ⟨_, hmin⟩ := strFind_spec COMMIT_MARK _ _ hfind
  have hge : shaLen + 1 ≤ j := by
    by_contra hlt
    push_neg at hlt
    have hx := hmin (pre.length + j) (by omega)
    rw [hlw] at hx
    exact Bool.noConfusion hx
  have hj1 : j = shaLen + 1 := by omega
  subst hj1
  have hdrop : (sha ++ ' ' :: tag).drop (shaLen + 1) = tag := by
    have hform : sha ++ ' ' :: tag = (sha ++ [' ']) ++ tag := by simp
    rw [hform]
    exact List.drop_left' (by simp [hsha])
  rw [hdrop] at hj
  obtain ⟨t, ht⟩ := (leadsWith_iff pat tag).mp hj
  have htk := congrArg (List.take 12) ht
  rw [List.take_left' hpat] at htk
  rw [List.take_of_length_le (by omega)] at htk
  exact htk.symm

/-- Claim C7: the postprocessing pass replaces the node glyph with `@` on
lines whose embedded tag is Head and with `|` on lines whose tag is
AbbreviationMarker — both on lines where the tag is followed by further
message text and on lines where the tag sits at the very end, the shape of
the blank abbreviation-marker commits — leaves Regular-tagged lines
unchanged apart from stripping the embedded `<sha> COMMIT_TYPEn ` span,
passes lines without an embedded tag through unchanged, and emits the
output lines in input order. -/
theorem C7_postprocess (shaLen : Nat) (pre sha rest : List Char)
    (hsha : sha.length = shaLen) :
    (strFind COMMIT_MARK (pre ++ ((sha ++ ' ' :: (COMMIT_HEAD ++ [' '])) ++ rest)) =
        some (pre.length + shaLen + 1) →
      postprocLine shaLen (pre ++ ((sha ++ ' ' :: (COMMIT_HEAD ++ [' '])) ++ rest)) =
        replaceFirst (pre ++ rest) '*' '@') ∧
    (strFind COMMIT_MARK (pre ++ ((sha ++ ' ' :: (COMMIT_ABBREV ++ [' '])) ++ rest)) =
        some (pre.length + shaLen + 1) →
      postprocLine shaLen (pre ++ ((sha ++ ' ' :: (COMMIT_ABBREV ++ [' '])) ++ rest)) =
        replaceFirst (pre ++ rest) '*' '|') ∧
    (strFind COMMIT_MARK (pre ++ ((sha ++ ' ' :: (COMMIT_REGULAR ++ [' '])) ++ rest)) =
        some (pre.length + shaLen + 1) →
      postprocLine shaLen (pre ++ ((sha ++ ' ' :: (COMMIT_REGULAR ++ [' '])) ++ rest)) =
        pre ++ rest) ∧
    (strFind COMMIT_MARK (pre ++ (sha ++ ' ' :: COMMIT_ABBREV)) =
        some (pre.length + shaLen + 1) →
      postprocLine shaLen (pre ++ (sha ++ ' ' :: COMMIT_ABBREV)) =
        replaceFirst pre '*' '|') ∧
    (strFind COMMIT_MARK (pre ++ (sha ++ ' ' :: COMMIT_HEAD)) =
        some (pre.length + shaLen + 1) →
      postprocLine shaLen (pre ++ (sha ++ ' ' :: COMMIT_HEAD)) =
        replaceFirst pre '*' '@') ∧
    (strFind COMMIT_MARK (pre ++ (sha ++ ' ' :: COMMIT_REGULAR)) =
        some (pre.length + shaLen + 1) →
      postprocLine shaLen (pre ++ (sha ++ ' ' :: COMMIT_REGULAR)) = pre) ∧
    ('*' ∈ pre → ∀ b, replaceFirst (pre ++ rest) '*' b =
        replaceFirst pre '*' b ++ rest) ∧
    (∀ l, strFind COMMIT_MARK l = none → postprocLine shaLen l = l) ∧
    (∀ lines, postprocess shaLen lines = lines.map (postprocLine shaLen)) := by
  refine ⟨?_, ?_, ?_, ?_, ?_, ?_, ?_, ?_, ?_⟩
  · intro hfind
    rw [postprocLine_eval shaLen pre sha COMMIT_HEAD rest hsha (by decide) hfind]
    have hfalse : ¬ containsSub COMMIT_ABBREV
        (sha ++ ' ' :: (COMMIT_HEAD ++ [' '])) = true := by
      intro hocc
      rcases occurrence_in_mid shaLen pre sha COMMIT_HEAD rest COMMIT_ABBREV
        ("TYPE1".toList) hsha (by decide) (by decide) (by decide) hfind hocc with
        heq | hlw
      · exact absurd heq (by decide)
      · exact absurd hlw (by decide)
    rw [if_neg hfalse, if_pos (containsSub_mid_self sha COMMIT_HEAD)]
  · intro hfind
    rw [postprocLine_eval shaLen pre sha COMMIT_ABBREV rest hsha (by decide) hfind]
    rw [if_pos (containsSub_mid_self sha COMMIT_ABBREV)]
  · intro hfind
    rw [postprocLine_eval shaLen pre sha COMMIT_REGULAR rest hsha (by decide) hfind]
    have hfalse1 : ¬ containsSub COMMIT_ABBREV
        (sha ++ ' ' :: (COMMIT_REGULAR ++ [' '])) = true := by
      intro hocc
      rcases occurrence_in_mid shaLen pre sha COMMIT_REGULAR rest COMMIT_ABBREV
        ("TYPE1".toList) hsha (by decide) (by decide) (by decide) hfind hocc with
        heq | hlw
      · exact absurd heq (by decide)
      · exact absurd hlw (by decide)
    have hfalse2 : ¬ containsSub COMMIT_HEAD
        (sha ++ ' ' :: (COMMIT_REGULAR ++ [' '])) = true := by
      intro hocc
      rcases occurrence_in_mid shaLen pre sha COMMIT_REGULAR rest COMMIT_HEAD
        ("TYPE3".toList) hsha (by decide) (by decide) (by decide) hfind hocc with
        heq | hlw
      · exact absurd heq (by decide)
      · exact absurd hlw (by decide)
    rw [if_neg hfalse1, if_neg hfalse2]
  · intro hfind
    rw [postprocLine_eval_eol shaLen pre sha COMMIT_ABBREV hsha (by decide) hfind]
    rw [if_pos (containsSub_eol_self sha COMMIT_ABBREV)]
  · intro hfind
    rw [postprocLine_eval_eol shaLen pre sha COMMIT_HEAD hsha (by decide) hfind]
    have hfalse : ¬ containsSub COMMIT_ABBREV (sha ++ ' ' :: COMMIT_HEAD) = true := by
      intro hocc
      have heq := occurrence_in_eol shaLen pre sha COMMIT_HEAD COMMIT_ABBREV
        ("TYPE1".toList) hsha (by decide) (by decide) (by decide) hfind hocc
      exact absurd heq (by decide)
    rw [if_neg hfalse, if_pos (containsSub_eol_self sha COMMIT_HEAD)]
  · intro hfind
    rw [postprocLine_eval_eol shaLen pre sha COMMIT_REGULAR hsha (by decide) hfind]
    have hfalse1 : ¬ containsSub COMMIT_ABBREV
        (sha ++ ' ' :: COMMIT_REGULAR) = true := by
      intro hocc
      have heq := occurrence_in_eol shaLen pre sha COMMIT_REGULAR COMMIT_ABBREV
        ("TYPE1".toList) hsha (by decide) (by decide) (by decide) hfind hocc
      exact absurd heq (by decide)
    have hfalse2 : ¬ containsSub COMMIT_HEAD
        (sha ++ ' ' :: COMMIT_REGULAR) = true := by
      intro hocc
      have heq := occurrence_in_eol shaLen pre sha COMMIT_REGULAR COMMIT_HEAD
        ("TYPE3".toList) hsha (by decide) (by decide) (by decide) hfind hocc
      exact absurd heq (by decide)
    rw [if_neg hfalse1, if_neg hfalse2]
  · intro hstar b
    exact replaceFirst_append_mem '*' b pre rest hstar
  · intro l hnone
    simp [postprocLine, hnone]
  · intro lines
    unfold postprocess
    rw [postprocess_eq_map shaLen lines []]
    simp

def preW : List Char := "* ".toList

def shaW : List Char := "0123456789012345678901234567890123456789".toList

def restW : List Char := "m".toList

theorem C7_witness :
    postprocLine 40 (preW ++ ((shaW ++ ' ' :: (COMMIT_HEAD ++ [' '])) ++ restW)) =
      replaceFirst (preW ++ restW) '*' '@' ∧
    postprocLine 40 (preW ++ (shaW ++ ' ' :: COMMIT_ABBREV)) =
      replaceFirst preW '*' '|' :=
  ⟨(C7_postprocess 40 preW shaW restW (by decide)).1 (by decide),
   (C7_postprocess 40 preW shaW restW (by decide)).2.2.2.1 (by decide)⟩

-- Why the fold root is always in the relevant set.

/-- Absorption: the meet of a common ancestor `r` of some pair with a fresh
commit `c` not above `r` is also the meet of the pair's member `a` with
`c`. -/
theorem meet_absorb (g : Graph) (a r c v : Nat)
    (har : Reaches g a r) (hcr : ¬ Reaches g c r)
    (hm : IsMeet g r c v) : IsMeet g a c v := by
  obtain ⟨hrv, hcv, hmax⟩ := hm
  refine ⟨reaches_trans g a r v har hrv, hcv, ?_⟩
  intro x hax hcx
  rcases reaches_cases g a x r hax har with hxr | hrx
  · exact absurd (reaches_trans g c x r hcx hxr) hcr
  · exact hmax x hrx hcx

theorem relevant_heads_mem (g : Graph) (fuel : Nat) (heads render : List Nat)
    (hrel : find_relevant_commits g fuel heads = some render) :
    ∀ h ∈ heads, h ∈ render := by
  unfold find_relevant_commits at hrel
  intro h hh
  rw [relevantLoop_mem g fuel heads (allPairs heads.length)
    (heads.foldl insertNew []) render hrel h]
  exact Or.inl ((mem_foldl_insertNew heads [] h).mpr (Or.inr hh))

theorem relevant_pairs_ok (g : Graph) (fuel : Nat) (heads render : List Nat)
    (hrel : find_relevant_commits g fuel heads = some render) :
    ∀ (i j : Nat) (c1 c2 : Nat), i ≠ j → heads[i]? = some c1 →
      heads[j]? = some c2 →
      ∃ v, find_lca g fuel c1 c2 = some v ∧ v ∈ render := by
  unfold find_relevant_commits at hrel
  intro i j c1 c2 hne h1 h2
  obtain ⟨hi, _⟩ := List.getElem?_eq_some_iff.mp h1
  obtain ⟨hj, _⟩ := List.getElem?_eq_some_iff.mp h2
  have hmem : ((i, j) : Nat × Nat) ∈ allPairs heads.length :=
    (mem_allPairs heads.length (i, j)).mpr ⟨hi, hj⟩
  obtain ⟨v, hv⟩ := relevantLoop_computed g fuel heads (allPairs heads.length)
    (heads.foldl insertNew []) render hrel (i, j) hmem hne c1 c2 h1 h2
  refine ⟨v, hv, ?_⟩
  rw [relevantLoop_mem g fuel heads (allPairs heads.length)
    (heads.foldl insertNew []) render hrel v]
  exact Or.inr ⟨(i, j), hmem, hne, c1, c2, h1, h2, hv⟩

/-- Invariant of the root fold: the current value is in the relevant set,
and it is a head or a meet of two heads. -/
def RootInv (g : Graph) (heads render : List Nat) (r : Nat) : Prop :=
  r ∈ render ∧
    (r ∈ heads ∨ ∃ c1 c2, c1 ∈ heads ∧ c2 ∈ heads ∧ IsMeet g c1 c2 r)

theorem rootStep (g : Graph) (hg : Acyclic g) (fuel1 fuel2 : Nat)
    (heads render : List Nat)
    (hpairs : ∀ (i j : Nat) (c1 c2 : Nat), i ≠ j → heads[i]? = some c1 →
      heads[j]? = some c2 → ∃ v, find_lca g fuel1 c1 c2 = some v ∧ v ∈ render)
    (r c r' : Nat) (hc : c ∈ heads)
    (hinv : RootInv g heads render r)
    (hlca : find_lca g fuel2 r c = some r') :
    RootInv g heads render r' := by
  by_cases hrc : r = c
  · subst hrc
    obtain rfl : r = r' := by simpa [find_lca] using hlca
    exact hinv
  · have hmeet : IsMeet g r c r' := find_lca_meet g hg fuel2 r c r' hlca
    obtain ⟨hrrend, hdisj⟩ := hinv
    rcases hdisj with hrh | ⟨c1, c2, hc1, hc2, hm12⟩
    · obtain ⟨i, hi⟩ := List.mem_iff_getElem?.mp hrh
      obtain ⟨k, hk⟩ := List.mem_iff_getElem?.mp hc
      have hik : i ≠ k := by
        rintro rfl
        rw [hi] at hk
        exact hrc (by simpa using hk)
      obtain ⟨v, hv, hvrend⟩ := hpairs i k r c hik hi hk
      have hvmeet : IsMeet g r c v := find_lca_meet g hg fuel1 r c v hv
      obtain rfl : r' = v := meet_unique g hg r c r' v hmeet hvmeet
      exact ⟨hvrend, Or.inr ⟨r, c, hrh, hc, hmeet⟩⟩
    · by_cases hcr : Reaches g c r
      · have hrr : IsMeet g r c r := isMeet_of_reaches g r c hcr
        obtain rfl : r' = r := meet_unique g hg r c r' r hmeet hrr
        exact ⟨hrrend, Or.inr ⟨c1, c2, hc1, hc2, hm12⟩⟩
      · have habs : IsMeet g c1 c r' := meet_absorb g c1 r c r' hm12.1 hcr hmeet
        obtain ⟨i, hi⟩ := List.mem_iff_getElem?.mp hc1
        obtain ⟨k, hk⟩ := List.mem_iff_getElem?.mp hc
        have hik : i ≠ k := by
          rintro rfl
          rw [hi] at hk
          have : c1 = c := by simpa using hk
          subst this
          exact hcr hm12.1
        obtain ⟨v, hv, hvrend⟩ := hpairs i k c1 c hik hi hk
        have hvmeet : IsMeet g c1 c v := find_lca_meet g hg fuel1 c1 c v hv
        obtain rfl : r' = v := meet_unique g hg c1 c r' v habs hvmeet
        exact ⟨hvrend, Or.inr ⟨c1, c, hc1, hc, habs⟩⟩

theorem rootLoop_inv (g : Graph) (hg : Acyclic g) (fuel1 fuel2 : Nat)
    (heads render : List Nat)
    (hpairs : ∀ (i j : Nat) (c1 c2 : Nat), i ≠ j → heads[i]? = some c1 →
      heads[j]? = some c2 → ∃ v, find_lca g fuel1 c1 c2 = some v ∧ v ∈ render) :
    ∀ (t : List Nat) (r root : Nat), (∀ c ∈ t, c ∈ heads) →
      RootInv g heads render r →
      rootLoop g fuel2 t r = some root →
      RootInv g heads render root := by
  intro t
  induction t with
  | nil =>
    intro r root _ hinv h
    obtain rfl : r = root := by simpa [rootLoop] using h
    exact hinv
  | cons c cs ih =>
    intro r root hmem hinv h
    rw [rootLoop] at h
    cases hl : find_lca g fuel2 r c with
    | none => rw [hl] at h; simp at h
    | some r' =>
      rw [hl] at h
      have hinv' := rootStep g hg fuel1 fuel2 heads render hpairs r c r'
        (hmem c (List.mem_cons_self c cs)) hinv hl
      exact ih r' root (fun x hx => hmem x (List.mem_cons_of_mem c hx)) hinv' h

/-- The sequential fold root is always one of the rendered relevant
commits: it is a head or a pairwise meet, and all pairwise LCAs were
inserted by `find_relevant_commits`. -/
theorem root_in_render (g : Graph) (hg : Acyclic g) (fuel1 fuel2 : Nat)
    (heads render : List Nat) (root : Nat)
    (hrel : find_relevant_commits g fuel1 heads = some render)
    (hroot : find_root g fuel2 heads = some root) : root ∈ render := by
  cases heads with
  | nil => simp [find_root] at hroot
  | cons h t =>
    have hpairs := relevant_pairs_ok g fuel1 (h :: t) render hrel
    have hinv0 : RootInv g (h :: t) render h :=
      ⟨relevant_heads_mem g fuel1 (h :: t) render hrel h (List.mem_cons_self h t),
       Or.inl (List.mem_cons_self h t)⟩
    exact (rootLoop_inv g hg fuel1 fuel2 (h :: t) render hpairs t h root
      (fun c hc => List.mem_cons_of_mem h hc) hinv0 hroot).1

-- Walk safety lemmas.

theorem walk_growth_render (g : Graph) (render created : List Nat) :
    ∀ fuel (c : Nat) (ab : Int) (growth : List Nat) (gaps : List Int)
      (G : List Nat) (N : List Int),
      walkLoop g render created fuel c ab growth gaps = WalkRes.ok G N →
      (∀ x ∈ growth, x ∈ render) → ∀ x ∈ G, x ∈ render := by
  intro fuel
  induction fuel with
  | zero => intro c ab growth gaps G N hw; simp [walkLoop] at hw
  | succ fuel ih =>
    intro c ab growth gaps G N hw hgr
    have hgr2 : ∀ x ∈ (if c ∈ render then growth ++ [c] else growth), x ∈ render := by
      by_cases hr : c ∈ render
      · rw [if_pos hr]
        intro x hx
        rcases List.mem_append.mp hx with hx | hx
        · exact hgr x hx
        · obtain rfl : x = c := by simpa using hx
          exact hr
      · rw [if_neg hr]
        exact hgr
    by_cases hc : c ∈ created
    · simp only [walkLoop, hc, if_true, ite_true] at hw
      obtain ⟨rfl, rfl⟩ :
          (if c ∈ render then growth ++ [c] else growth) = G ∧
          (if c ∈ render then gaps ++ [ab - 1] else gaps) = N := by
        by_cases hr : c ∈ render <;> simp [hr] at hw ⊢ <;> exact hw
      exact hgr2
    · simp only [walkLoop, hc, if_false, ite_false] at hw
      cases hp : g.parent c with
      | none => rw [hp] at hw; simp at hw
      | some p =>
        rw [hp] at hw
        simp only [] at hw
        exact ih p _ _ _ G N hw hgr2

theorem walk_last_created (g : Graph) (render created : List Nat)
    (hsub : ∀ x ∈ created, x ∈ render) :
    ∀ fuel (c : Nat) (ab : Int) (growth : List Nat) (gaps : List Int)
      (G : List Nat) (N : List Int),
      walkLoop g render created fuel c ab growth gaps = WalkRes.ok G N →
      ∃ a, a ∈ created ∧ G.getLast? = some a := by
  intro fuel
  induction fuel with
  | zero => intro c ab growth gaps G N hw; simp [walkLoop] at hw
  | succ fuel ih =>
    intro c ab growth gaps G N hw
    by_cases hc : c ∈ created
    · have hr : c ∈ render := hsub c hc
      simp only [walkLoop, hc, hr, if_true, ite_true] at hw
      obtain ⟨rfl, rfl⟩ : growth ++ [c] = G ∧ gaps ++ [ab - 1] = N := by
        simpa using hw
      exact ⟨c, hc, List.getLast?_concat growth⟩
    · simp only [walkLoop, hc, if_false, ite_false] at hw
      cases hp : g.parent c with
      | none => rw [hp] at hw; simp at hw
      | some p =>
        rw [hp] at hw
        simp only [] at hw
        exact ih p _ _ _ G N hw

theorem walk_no_noParent (g : Graph) (render created : List Nat)
    (root : Nat) (hrootc : root ∈ created) :
    ∀ fuel (c : Nat) (ab : Int) (growth : List Nat) (gaps : List Int),
      Reaches g c root →
      walkLoop g render created fuel c ab growth gaps ≠ WalkRes.noParent := by
  intro fuel
  induction fuel with
  | zero => intro c ab growth gaps _ h; simp [walkLoop] at h
  | succ fuel ih =>
    intro c ab growth gaps hreach h
    by_cases hc : c ∈ created
    · simp only [walkLoop, hc, if_true, ite_true] at h
      exact WalkRes.noConfusion h
    · have hcroot : c ≠ root := fun hh => hc (hh ▸ hrootc)
      obtain ⟨d, hd⟩ := hreach
      cases d with
      | zero =>
        exact hcroot (by simpa [iterParent] using hd)
      | succ d' =>
        simp only [walkLoop, hc, if_false, ite_false] at h
        cases hp : g.parent c with
        | none => rw [iterParent, hp] at hd; simp at hd
        | some p =>
          rw [hp] at h
          simp only [] at h
          rw [iterParent, hp] at hd
          exact ih p _ _ _ ⟨d', hd⟩ h

theorem walk_terminates (g : Graph) (render created : List Nat)
    (root : Nat) (hrootc : root ∈ created) :
    ∀ (d : Nat) (c : Nat) (ab : Int) (growth : List Nat) (gaps : List Int),
      iterParent g d c = some root →
      ∃ G N, walkLoop g render created (d + 1) c ab growth gaps =
        WalkRes.ok G N := by
  intro d
  induction d with
  | zero =>
    intro c ab growth gaps hd
    obtain rfl : c = root := by simpa [iterParent] using hd
    simp only [walkLoop, hrootc, if_true, ite_true]
    exact ⟨_, _, rfl⟩
  | succ d ih =>
    intro c ab growth gaps hd
    by_cases hc : c ∈ created
    · simp only [walkLoop, hc, if_true, ite_true]
      exact ⟨_, _, rfl⟩
    · rw [iterParent] at hd
      cases hp : g.parent c with
      | none => rw [hp] at hd; simp at hd
      | some p =>
        rw [hp] at hd
        simp only [walkLoop, hc, hp, if_false, ite_false]
        exact ih p _ _ _ hd

theorem walk_mono (g : Graph) (render created : List Nat) :
    ∀ fuel fuel' (c : Nat) (ab : Int) (growth : List Nat) (gaps : List Int)
      (G : List Nat) (N : List Int), fuel ≤ fuel' →
      walkLoop g render created fuel c ab growth gaps = WalkRes.ok G N →
      walkLoop g render created fuel' c ab growth gaps = WalkRes.ok G N := by
  intro fuel
  induction fuel with
  | zero => intro fuel' c ab growth gaps G N _ hw; simp [walkLoop] at hw
  | succ fuel ih =>
    intro fuel' c ab growth gaps G N hle hw
    cases fuel' with
    | zero => omega
    | succ fuel'' =>
      by_cases hc : c ∈ created
      · simp only [walkLoop, hc, if_true, ite_true] at hw ⊢
        exact hw
      · simp only [walkLoop, hc, if_false, ite_false] at hw ⊢
        cases hp : g.parent c with
        | none => rw [hp] at hw; simp at hw
        | some p =>
          rw [hp] at hw
          simp only [] at hw
          exact ih fuel'' p _ _ _ G N (by omega) hw

theorem chainPairs_fst_mem (G : List Nat) (N : List Int) (x : Nat)
    (hx : x ∈ (chainPairs G N).map Prod.fst) : x ∈ G := by
  obtain ⟨pr, hpr, rfl⟩ := List.mem_map.mp hx
  have h1 : (pr.1, pr.2) ∈ (G.reverse.drop 1).zip N.reverse := hpr
  have h2 : pr.1 ∈ G.reverse.drop 1 := (List.of_mem_zip h1).1
  exact List.mem_reverse.mp (List.mem_of_mem_drop h2)

-- Assembly loop safety.

theorem asm_no_crash (g : Graph) (heads render : List Nat) (root : Nat)
    (fuel : Nat) :
    ∀ (hs : List Nat) (nodes : List FauxNode) (created : List Nat),
      root ∈ created → (∀ x ∈ created, x ∈ render) →
      (∀ h ∈ hs, Reaches g h root) →
      asmLoop g heads render fuel hs nodes created ≠ AsmRes.noParentCrash ∧
      asmLoop g heads render fuel hs nodes created ≠ AsmRes.anchorMissing ∧
      asmLoop g heads render fuel hs nodes created ≠ AsmRes.emptyGrowth := by
  intro hs
  induction hs with
  | nil =>
    intro nodes created _ _ _
    refine ⟨?_, ?_, ?_⟩ <;> simp [asmLoop]
  | cons hd hs ih =>
    intro nodes created hrc hsub hreach
    have hreachhd : Reaches g hd root := hreach hd (List.mem_cons_self hd hs)
    refine ⟨?_, ?_, ?_⟩ <;>
    · rw [asmLoop]
      cases hw : walkLoop g render created fuel hd 0 [] [] with
      | fuelOut => simp
      | noParent =>
        exact absurd hw (walk_no_noParent g render created root hrc fuel hd 0 [] []
          hreachhd)
      | ok growth gaps =>
        simp only []
        obtain ⟨a, hac, hlast⟩ :=
          walk_last_created g render created hsub fuel hd 0 [] [] growth gaps hw
        have hbud : growth.reverse.head? = some a := by
          rw [List.head?_reverse]
          exact hlast
        rw [hbud]
        simp only []
        rw [if_pos hac]
        have hrc' : root ∈ created ++ (chainPairs growth gaps).map Prod.fst :=
          List.mem_append.mpr (Or.inl hrc)
        have hsub' : ∀ x ∈ created ++ (chainPairs growth gaps).map Prod.fst,
            x ∈ render := by
          intro x hx
          rcases List.mem_append.mp hx with hx | hx
          · exact hsub x hx
          · exact walk_growth_render g render created fuel hd 0 [] [] growth gaps
              hw (by simp) x (chainPairs_fst_mem growth gaps x hx)
        have hreach' : ∀ h ∈ hs, Reaches g h root :=
          fun h hh => hreach h (List.mem_cons_of_mem hd hh)
        first
        | exact (ih _ _ hrc' hsub' hreach').1
        | exact (ih _ _ hrc' hsub' hreach').2.1
        | exact (ih _ _ hrc' hsub' hreach').2.2

theorem asm_mono (g : Graph) (heads render : List Nat) :
    ∀ (hs : List Nat) (fuel fuel' : Nat) (nodes : List FauxNode)
      (created : List Nat) (nodes' : List FauxNode) (created' : List Nat),
      fuel ≤ fuel' →
      asmLoop g heads render fuel hs nodes created = AsmRes.ok nodes' created' →
      asmLoop g heads render fuel' hs nodes created = AsmRes.ok nodes' created' := by
  intro hs
  induction hs with
  | nil =>
    intro fuel fuel' nodes created nodes' created' _ h
    rw [asmLoop] at h ⊢
    exact h
  | cons hd hs ih =>
    intro fuel fuel' nodes created nodes' created' hle h
    rw [asmLoop] at h ⊢
    cases hw : walkLoop g render created fuel hd 0 [] [] with
    | fuelOut => rw [hw] at h; simp at h
    | noParent => rw [hw] at h; simp at h
    | ok growth gaps =>
      rw [hw] at h
      simp only [] at h
      have hw' : walkLoop g render created fuel' hd 0 [] [] =
          WalkRes.ok growth gaps :=
        walk_mono g render created fuel fuel' hd 0 [] [] growth gaps hle hw
      rw [hw']
      simp only []
      cases hb : growth.reverse.head? with
      | none =>
        rw [hb] at h
        simp at h
      | some bud =>
        rw [hb] at h
        simp only [] at h ⊢
        by_cases hbc : bud ∈ created
        · rw [if_pos hbc] at h
          rw [if_pos hbc]
          exact ih fuel fuel' _ _ nodes' created' hle h
        · rw [if_neg hbc] at h
          simp at h

theorem asm_ok (g : Graph) (heads render : List Nat) (root : Nat) :
    ∀ (hs : List Nat) (nodes : List FauxNode) (created : List Nat),
      root ∈ created → (∀ x ∈ created, x ∈ render) →
      (∀ h ∈ hs, Reaches g h root) →
      ∃ fuel nodes' created',
        asmLoop g heads render fuel hs nodes created =
          AsmRes.ok nodes' created' := by
  intro hs
  induction hs with
  | nil =>
    intro nodes created _ _ _
    exact ⟨0, nodes, created, rfl⟩
  | cons hd hs ih =>
    intro nodes created hrc hsub hreach
    obtain ⟨d, hdr⟩ := hreach hd (List.mem_cons_self hd hs)
    obtain ⟨G, N, hw⟩ :=
      walk_terminates g render created root hrc d hd 0 [] [] hdr
    have hrc' : root ∈ created ++ (chainPairs G N).map Prod.fst :=
      List.mem_append.mpr (Or.inl hrc)
    have hsub' : ∀ x ∈ created ++ (chainPairs G N).map Prod.fst, x ∈ render := by
      intro x hx
      rcases List.mem_append.mp hx with hx | hx
      · exact hsub x hx
      · exact walk_growth_render g render created (d + 1) hd 0 [] [] G N hw
          (by simp) x (chainPairs_fst_mem G N x hx)
    have hreach' : ∀ h ∈ hs, Reaches g h root :=
      fun h hh => hreach h (List.mem_cons_of_mem hd hh)
    obtain ⟨fr, n', c', hrec⟩ := ih
      (nodes ++ (chainPairs G N).flatMap (fun pr => entryNodes g heads pr.1 pr.2))
      (created ++ (chainPairs G N).map Prod.fst) hrc' hsub' hreach'
    refine ⟨max (d + 1) fr, n', c', ?_⟩
    have hw' : walkLoop g render created (max (d + 1) fr) hd 0 [] [] =
        WalkRes.ok G N :=
      walk_mono g render created (d + 1) (max (d + 1) fr) hd 0 [] [] G N
        (Nat.le_max_left _ _) hw
    rw [asmLoop, hw']
    simp only []
    obtain ⟨a, hac, hlast⟩ :=
      walk_last_created g render created hsub (d + 1) hd 0 [] [] G N hw
    have hbud : G.reverse.head? = some a := by
      rw [List.head?_reverse]
      exact hlast
    rw [hbud]
    simp only []
    rw [if_pos hac]
    exact asm_mono g heads render hs fr (max (d + 1) fr) _ _ n' c'
      (Nat.le_max_right _ _) hrec

/-- Claim C8: whenever the relevant set and the fold root have been
computed (which encodes that every head shares a common primary-parent
ancestor) and the root is rendered first, the per-head backward walks never
step past a parentless commit, every chain's first entry is found among the
already-created commits (the anchor KeyError branch is unreachable), and
the whole assembly succeeds for sufficiently many walk steps. -/
theorem C8_assembly_safe (g : Graph) (hg : Acyclic g) (fuel1 fuel2 : Nat)
    (heads render : List Nat) (root : Nat)
    (hrel : find_relevant_commits g fuel1 heads = some render)
    (hroot : find_root g fuel2 heads = some root) :
    (∀ fuel, assembleAll g heads render root fuel ≠ AsmRes.noParentCrash ∧
      assembleAll g heads render root fuel ≠ AsmRes.anchorMissing ∧
      assembleAll g heads render root fuel ≠ AsmRes.emptyGrowth) ∧
    (∃ fuel nodes created,
      assembleAll g heads render root fuel = AsmRes.ok nodes created) := by
  have hrr : root ∈ render :=
    root_in_render g hg fuel1 fuel2 heads render root hrel hroot
  have hreach : ∀ h ∈ heads, Reaches g h root :=
    find_root_reaches g fuel2 heads root hroot
  have hrc : root ∈ [root] := by simp
  have hsub : ∀ x ∈ [root], x ∈ render := by
    intro x hx
    obtain rfl : x = root := by simpa using hx
    exact hrr
  constructor
  · intro fuel
    exact asm_no_crash g heads render root fuel heads
      [rootNode g heads root] [root] hrc hsub hreach
  · exact asm_ok g heads render root heads
      [rootNode g heads root] [root] hrc hsub hreach

/-- On graphs whose primary parent strictly decreases the identifier, the
primary-parent relation is acyclic. -/
theorem acyclic_of_parent_lt (g : Graph)
    (hdec : ∀ x p, g.parent x = some p → p < x) : Acyclic g := by
  have hiter : ∀ n x y, iterParent g n x = some y → y ≤ x ∧ (0 < n → y < x) := by
    intro n
    induction n with
    | zero =>
      intro x y h
      obtain rfl : x = y := by simpa [iterParent] using h
      exact ⟨le_refl x, by omega⟩
    | succ m ih =>
      intro x y h
      rw [iterParent] at h
      cases hp : g.parent x with
      | none => rw [hp] at h; simp at h
      | some p =>
        rw [hp] at h
        have h1 := hdec x p hp
        have h2 := (ih p y h).1
        exact ⟨by omega, fun _ => by omega⟩
  intro x n h
  by_contra hn
  have := (hiter n x x h).2 (by omega)
  omega

theorem gW_acyclic : Acyclic gW := by
  apply acyclic_of_parent_lt
  intro x p h
  simp only [gW] at h
  split_ifs at h with h1 h2 h3
  · obtain rfl : x - 1 = p := by simpa using h
    omega
  · obtain rfl : (2 : Nat) = p := by simpa using h
    omega

theorem C8_witness :
    (∀ fuel, assembleAll gW [4, 5] [4, 5, 2] 2 fuel ≠ AsmRes.noParentCrash ∧
      assembleAll gW [4, 5] [4, 5, 2] 2 fuel ≠ AsmRes.anchorMissing ∧
      assembleAll gW [4, 5] [4, 5, 2] 2 fuel ≠ AsmRes.emptyGrowth) ∧
    (∃ fuel nodes created,
      assembleAll gW [4, 5] [4, 5, 2] 2 fuel = AsmRes.ok nodes created) :=
  C8_assembly_safe gW gW_acyclic 10 10 [4, 5] [4, 5, 2] 2 rfl rfl
